import Mathlib

/-!
Shallow embedding of the music-harmonizer core (quantizer, tempo analyzer,
onset peak-picking, note-segmenter post-processing, harmonizer, chord
suggestion, chord-duration recalculation) and proofs about it.

Modelling conventions:
* JavaScript numbers are modelled as exact rationals (`ℚ`); MIDI numbers,
  frame indices and other integer-valued quantities are modelled as `ℤ`/`ℕ`.
* `Math.round` is round-half-up (`⌊q + 1/2⌋`), `Math.floor` on a quotient of
  integers is `Int.fdiv`, and the JavaScript `%` operator (remainder with the
  sign of the dividend) is `Int.tmod`.
* The `frequency` field of a NoteEvent (`440 * 2^((midi-69)/12)`, an
  informational value fully determined by `midi`) is transcendental and is
  not carried in the embedding; no claim mentions it.
-/

/-- JavaScript Math.round: round half toward positive infinity. -/
def jround (q : ℚ) : ℤ := ⌊q + 1/2⌋

/-- NoteEvent from types/music (midi, startTime, duration, velocity);
the derived `frequency` field is omitted (see module docstring). -/
structure NoteEvent where
  midi : ℤ
  startTime : ℚ
  duration : ℚ
  velocity : ℚ
  deriving DecidableEq, Repr

/-- The nine legal rhythmic duration symbols (type NoteDuration). -/
inductive NoteDuration where
  | whole | half | quarter | eighth | sixteenth
  | wholeDotted | halfDotted | quarterDotted | eighthDotted
  deriving DecidableEq, Repr

/-- QuantizedNote from types/music. -/
structure QuantizedNote where
  midi : ℤ
  noteName : String
  duration : NoteDuration
  durationBeats : ℚ
  startBeat : ℚ
  deriving DecidableEq, Repr

/-- DURATION_VALUES table: duration values in beats. -/
def durationValue : NoteDuration → ℚ
  | .wholeDotted => 6
  | .whole => 4
  | .halfDotted => 3
  | .half => 2
  | .quarterDotted => 3/2
  | .quarter => 1
  | .eighthDotted => 3/4
  | .eighth => 1/2
  | .sixteenth => 1/4

/-- DURATION_ORDER: longest to shortest. -/
def DURATION_ORDER : List NoteDuration :=
  [.wholeDotted, .whole, .halfDotted, .half,
   .quarterDotted, .quarter, .eighthDotted, .eighth, .sixteenth]

/-- The `minQuantization.replace('-dotted', '')` step: strip the dot. -/
def stripDotted : NoteDuration → NoteDuration
  | .wholeDotted => .whole
  | .halfDotted => .half
  | .quarterDotted => .quarter
  | .eighthDotted => .eighth
  | d => d

/-- MIN_QUANT_INDEX lookup on the stripped base name.  Every one of the five
base names is present in the source table, so the `?? 8` fallback never
fires; `stripDotted` always yields a base name, for which we give the
matching table entry. -/
def minQuantIndex (base : NoteDuration) : ℕ :=
  match base with
  | .whole => 1
  | .half => 3
  | .quarter => 5
  | .eighth => 7
  | .sixteenth => 8
  | _ => 8

/-- NOTE_NAMES_SHARP from types/music. -/
def NOTE_NAMES_SHARP : List String :=
  ["C", "C#", "D", "D#"] ++ ["E", "F", "F#", "G"] ++ ["G#", "A", "A#", "B"]

/-- NOTE_NAMES_FLAT from types/music. -/
def NOTE_NAMES_FLAT : List String :=
  ["C", "Db", "D", "Eb", "E", "F", "Gb", "G", "Ab", "A", "Bb", "B"]

/-- FLAT_KEYS from types/music. -/
def FLAT_KEYS : List String := ["F", "Bb", "Eb", "Ab", "Db", "Gb"]

/-- midiToNoteName from types/music.  `keySignature` is optional; a missing
or empty key signature is falsy in the source, so flats are only used when a
key signature is supplied and appears in FLAT_KEYS.  An out-of-range index
(negative midi) yields `undefined` in the source; here the list lookup
defaults to the empty string. -/
def midiToNoteName (midi : ℤ) (keySignature : Option String) : String :=
  let octave : ℤ := midi.fdiv 12 - 1
  let noteIndex : ℤ := midi.tmod 12
  let useFlats : Bool := match keySignature with
    | some k => k ∈ FLAT_KEYS
    | none => false
  let noteNames := if useFlats then NOTE_NAMES_FLAT else NOTE_NAMES_SHARP
  (noteNames.getD noteIndex.toNat "") ++ toString octave

/-- QuantizerOptions (tempo in BPM, minimum quantization, key signature). -/
structure QuantizerOptions where
  tempo : ℚ
  minQuantization : NoteDuration := .sixteenth
  keySignature : Option String := none

/-- The adjusted matching score used by findBestDuration: `|1 - ratio|`,
plus `0.3` when `ratio < 0.7`. -/
def adjustedScore (beats : ℚ) (d : NoteDuration) : ℚ :=
  let ratio := beats / durationValue d
  let score := |1 - ratio|
  if ratio < 7/10 then score + 3/10 else score

/-- The search loop of findBestDuration: scan the allowed durations in
order, keeping the first candidate that strictly improves the best adjusted
score.  `none` models the initial `bestScore = Infinity`. -/
def bestDurationLoop (beats : ℚ) :
    List NoteDuration → Option ((NoteDuration × ℚ) × ℚ) → Option ((NoteDuration × ℚ) × ℚ)
  | [], acc => acc
  | d :: rest, acc =>
      let s := adjustedScore beats d
      match acc with
      | none => bestDurationLoop beats rest (some ((d, durationValue d), s))
      | some (best, bestScore) =>
          if s < bestScore then bestDurationLoop beats rest (some ((d, durationValue d), s))
          else bestDurationLoop beats rest (some (best, bestScore))

/-- findBestDuration from quantizer.ts.  The very-short branch takes the
last allowed duration (`allowedDurations[allowedDurations.length - 1]`);
`allowedDurations` is never empty at the call site (a prefix of length
`minIndex + 1 ≥ 2` of DURATION_ORDER), so the `getLastD` default never
fires. -/
def findBestDuration (beats : ℚ) (allowedDurations : List NoteDuration) :
    NoteDuration × ℚ :=
  if beats < 1/5 then
    let smallest := allowedDurations.getLastD .quarter
    (smallest, durationValue smallest)
  else if 13/2 < beats then
    (.wholeDotted, 6)
  else
    match bestDurationLoop beats allowedDurations none with
    | some (best, _) => best
    | none => (.quarter, 1)

/-- The allowed duration vocabulary selected by `minQuantization`:
`DURATION_ORDER.slice(0, minIndex + 1)`. -/
def allowedDurationsOf (minQuantization : NoteDuration) : List NoteDuration :=
  DURATION_ORDER.take (minQuantIndex (stripDotted minQuantization) + 1)

/-- quantizeNotes from quantizer.ts.  `gridSize` is
`DURATION_VALUES[base] || 0.25`; the table value is always a nonzero
rational, so the `|| 0.25` falsy fallback never fires. -/
def quantizeNotes (notes : List NoteEvent) (options : QuantizerOptions) :
    List QuantizedNote :=
  let secondsPerBeat := 60 / options.tempo
  let allowedDurations := allowedDurationsOf options.minQuantization
  notes.map fun note =>
    let startBeat := note.startTime / secondsPerBeat
    let durationBeats := note.duration / secondsPerBeat
    let gridSize := durationValue (stripDotted options.minQuantization)
    let quantizedStartBeat : ℚ := (jround (startBeat / gridSize) : ℚ) * gridSize
    let quantizedDuration := findBestDuration durationBeats allowedDurations
    { midi := note.midi
      noteName := midiToNoteName note.midi options.keySignature
      duration := quantizedDuration.1
      durationBeats := quantizedDuration.2
      startBeat := quantizedStartBeat }

/-- The `while (expectedMeasureStart > currentMeasureStart)` loop of
groupIntoMeasures: each iteration pushes the current measure only when it is
non-empty, then advances by one measure.  The source loop does not terminate
when `beatsPerMeasure ≤ 0` and the target is ahead; the embedding exits in
that (unreachable) case. -/
def fillMeasuresLoop (beatsPerMeasure expected : ℚ)
    (measures : List (List QuantizedNote)) (currentMeasure : List QuantizedNote)
    (currentMeasureStart : ℚ) : List (List QuantizedNote) × ℚ :=
  if h : currentMeasureStart < expected ∧ 0 < beatsPerMeasure then
    fillMeasuresLoop beatsPerMeasure expected
      (if currentMeasure.length > 0 then measures ++ [currentMeasure] else measures)
      [] (currentMeasureStart + beatsPerMeasure)
  else
    (measures, currentMeasureStart)
  termination_by (⌈(expected - currentMeasureStart) / beatsPerMeasure⌉).toNat
  decreasing_by
    have hb : 0 < beatsPerMeasure := h.2
    have hlt : currentMeasureStart < expected := h.1
    have hpos : 0 < (expected - currentMeasureStart) / beatsPerMeasure := by
      exact div_pos (by linarith) hb
    have hstep : (expected - (currentMeasureStart + beatsPerMeasure)) / beatsPerMeasure
        = (expected - currentMeasureStart) / beatsPerMeasure - 1 := by
      field_simp
      ring
    rw [hstep]
    have hceil : (⌈(expected - currentMeasureStart) / beatsPerMeasure - 1⌉ : ℤ)
        = ⌈(expected - currentMeasureStart) / beatsPerMeasure⌉ - 1 := by
      exact_mod_cast Int.ceil_sub_int ((expected - currentMeasureStart) / beatsPerMeasure) 1
    rw [hceil]
    have h1 : (1 : ℤ) ≤ ⌈(expected - currentMeasureStart) / beatsPerMeasure⌉ :=
      Int.ceil_pos.mpr hpos
    omega

/-- The per-note body plus fold of groupIntoMeasures' main loop. -/
def groupNotesLoop (beatsPerMeasure : ℚ) :
    List QuantizedNote → List (List QuantizedNote) → List QuantizedNote → ℚ →
    List (List QuantizedNote) × List QuantizedNote
  | [], measures, currentMeasure, _ => (measures, currentMeasure)
  | note :: rest, measures, currentMeasure, currentMeasureStart =>
      let measureIndex : ℤ := ⌊note.startBeat / beatsPerMeasure⌋
      let expectedMeasureStart : ℚ := (measureIndex : ℚ) * beatsPerMeasure
      let filled := fillMeasuresLoop beatsPerMeasure expectedMeasureStart
        measures currentMeasure currentMeasureStart
      let measures' := filled.1
      let newStart := filled.2
      let currentMeasure' :=
        (if currentMeasureStart < expectedMeasureStart ∧ 0 < beatsPerMeasure
         then [] else currentMeasure) ++
          [{ note with startBeat := note.startBeat - newStart }]
      groupNotesLoop beatsPerMeasure rest measures' currentMeasure' newStart

/-- groupIntoMeasures from quantizer.ts. -/
def groupIntoMeasures (notes : List QuantizedNote) (beatsPerMeasure : ℚ := 4) :
    List (List QuantizedNote) :=
  if notes.length = 0 then []
  else
    let r := groupNotesLoop beatsPerMeasure notes [] [] 0
    if r.2.length > 0 then r.1 ++ [r.2] else r.1

/-! ### Claim C1: groupIntoMeasures and empty-measure insertion -/

/-- Claim C1 (code bug).  Failing input for the claim that
`groupIntoMeasures` inserts an empty measure array for every gap measure: a
single quantized note with startBeat 5 and beatsPerMeasure 4.  The source's
while loop guards every push with `currentMeasure.length > 0`, so the empty
gap measure is never emitted: the note (correctly rewritten to relative
startBeat 1) appears as the only measure, at output index 0 instead of
index 1.  The claim (and the source's own comment, and the spec) require
output `[[], [note at relative startBeat 1]]`. -/
theorem C1_groupIntoMeasures_failing_input :
    groupIntoMeasures [⟨60, "C4", .quarter, 1, 5⟩] 4 =
      [[⟨60, "C4", .quarter, 1, 1⟩]] := by
  have h1 : fillMeasuresLoop 4 4 [] [] 4 = ([], 4) := by
    rw [fillMeasuresLoop]
    norm_num
  have h0 : fillMeasuresLoop 4 4 [] [] 0 = ([], 4) := by
    rw [fillMeasuresLoop]
    norm_num [h1]
  have hfloor : (⌊(5 : ℚ) / 4⌋ : ℤ) = 1 := by norm_num [Int.floor_eq_iff]
  simp [groupIntoMeasures, groupNotesLoop, hfloor, h0]
  norm_num

/-! ### Claim C4: findBestDuration / quantizeNotes duration matching -/

/-- Accumulator invariant for `bestDurationLoop`: a stored best candidate
carries its own table value and its own adjusted score. -/
def GoodAcc (b : ℚ) : Option ((NoteDuration × ℚ) × ℚ) → Prop
  | none => True
  | some ((d, v), s) => v = durationValue d ∧ s = adjustedScore b d

/-- The scanning loop returns a candidate from the scanned list (or the
initial accumulator) whose adjusted score is minimal among everything
seen. -/
theorem bestDurationLoop_spec (b : ℚ) :
    ∀ (l : List NoteDuration) (acc : Option ((NoteDuration × ℚ) × ℚ)),
      GoodAcc b acc →
      (bestDurationLoop b l acc = none → l = [] ∧ acc = none) ∧
      (∀ d v s, bestDurationLoop b l acc = some ((d, v), s) →
        v = durationValue d ∧ s = adjustedScore b d ∧
        (d ∈ l ∨ (∃ v0 s0, acc = some ((d, v0), s0))) ∧
        (∀ e ∈ l, s ≤ adjustedScore b e) ∧
        (∀ d0 v0 s0, acc = some ((d0, v0), s0) → s ≤ s0)) := by
  intro l
  induction l with
  | nil =>
      intro acc hacc
      constructor
      · intro h
        cases acc with
        | none => exact ⟨rfl, rfl⟩
        | some p => simp [bestDurationLoop] at h
      · intro d v s h
        cases acc with
        | none => simp [bestDurationLoop] at h
        | some p =>
            simp [bestDurationLoop] at h
            obtain ⟨⟨d0, v0⟩, s0⟩ := p
            cases h
            simp [GoodAcc] at hacc
            exact ⟨hacc.1, hacc.2, Or.inr ⟨v, s, rfl⟩, by simp,
              fun d1 v1 s1 he => by cases he; exact le_refl _⟩
  | cons hd tl ih =>
      intro acc hacc
      cases acc with
      | none =>
          have hgood : GoodAcc b (some ((hd, durationValue hd), adjustedScore b hd)) :=
            ⟨rfl, rfl⟩
          have h := ih (some ((hd, durationValue hd), adjustedScore b hd)) hgood
          constructor
          · intro hnone
            rw [bestDurationLoop] at hnone
            exact absurd (h.1 hnone).2 (by simp)
          · intro d v s hsome
            rw [bestDurationLoop] at hsome
            obtain ⟨hv, hs, hmem, hmin, hacc'⟩ := h.2 d v s hsome
            refine ⟨hv, hs, ?_, ?_, ?_⟩
            · rcases hmem with hm | ⟨v0, s0, he⟩
              · exact Or.inl (List.mem_cons_of_mem _ hm)
              · cases he; exact Or.inl (List.mem_cons_self _ _)
            · intro e he
              rcases List.mem_cons.mp he with rfl | he'
              · exact hacc' _ _ _ rfl
              · exact hmin e he'
            · intro d0 v0 s0 he
              simp at he
      | some p =>
          obtain ⟨⟨d0, v0⟩, s0⟩ := p
          obtain ⟨hv0, hs0⟩ := hacc
          by_cases hlt : adjustedScore b hd < s0
          · have hgood : GoodAcc b (some ((hd, durationValue hd), adjustedScore b hd)) :=
              ⟨rfl, rfl⟩
            have h := ih (some ((hd, durationValue hd), adjustedScore b hd)) hgood
            constructor
            · intro hnone
              rw [bestDurationLoop] at hnone
              simp only [hlt, if_pos] at hnone
              exact absurd (h.1 hnone).2 (by simp)
            · intro d v s hsome
              rw [bestDurationLoop] at hsome
              simp only [hlt, if_pos] at hsome
              obtain ⟨hv, hs, hmem, hmin, hacc'⟩ := h.2 d v s hsome
              refine ⟨hv, hs, ?_, ?_, ?_⟩
              · rcases hmem with hm | ⟨v1, s1, he⟩
                · exact Or.inl (List.mem_cons_of_mem _ hm)
                · cases he; exact Or.inl (List.mem_cons_self _ _)
              · intro e he
                rcases List.mem_cons.mp he with rfl | he'
                · exact hacc' _ _ _ rfl
                · exact hmin e he'
              · intro d1 v1 s1 he
                cases he
                have := hacc' hd (durationValue hd) (adjustedScore b hd) rfl
                linarith
          · have hgood : GoodAcc b (some ((d0, v0), s0)) := ⟨hv0, hs0⟩
            have h := ih (some ((d0, v0), s0)) hgood
            constructor
            · intro hnone
              rw [bestDurationLoop] at hnone
              simp only [hlt, if_neg, if_false] at hnone
              exact absurd (h.1 hnone).2 (by simp)
            · intro d v s hsome
              rw [bestDurationLoop] at hsome
              simp only [hlt, if_neg, if_false] at hsome
              obtain ⟨hv, hs, hmem, hmin, hacc'⟩ := h.2 d v s hsome
              refine ⟨hv, hs, ?_, ?_, ?_⟩
              · rcases hmem with hm | ⟨v1, s1, he⟩
                · exact Or.inl (List.mem_cons_of_mem _ hm)
                · cases he
                  exact Or.inr ⟨_, _, rfl⟩
              · intro e he
                rcases List.mem_cons.mp he with rfl | he'
                · have := hacc' _ _ _ rfl
                  have hge := le_of_not_lt hlt
                  linarith
                · exact hmin e he'
              · intro d1 v1 s1 he
                cases he
                exact hacc' _ _ _ rfl

/-- In the non-degenerate regime, findBestDuration returns an allowed
duration with minimal adjusted score, paired with its table value. -/
theorem findBestDuration_min (b : ℚ) (allowed : List NoteDuration)
    (h1 : 1/5 ≤ b) (h2 : b ≤ 13/2) (hne : allowed ≠ []) :
    (findBestDuration b allowed).1 ∈ allowed ∧
    (findBestDuration b allowed).2 = durationValue (findBestDuration b allowed).1 ∧
    ∀ d ∈ allowed, adjustedScore b (findBestDuration b allowed).1 ≤ adjustedScore b d := by
  have hspec := bestDurationLoop_spec b allowed none trivial
  have hnlt1 : ¬ b < 1/5 := not_lt.mpr h1
  have hnlt2 : ¬ 13/2 < b := not_lt.mpr h2
  rw [findBestDuration]
  simp only [hnlt1, if_false, hnlt2]
  cases hbd : bestDurationLoop b allowed none with
  | none => exact absurd (hspec.1 hbd).1 hne
  | some p =>
      obtain ⟨⟨d0, v0⟩, s0⟩ := p
      obtain ⟨hv, hs, hmem, hmin, _⟩ := hspec.2 d0 v0 s0 hbd
      rcases hmem with hm | ⟨v1, s1, habs⟩
      · exact ⟨hm, hv, by rw [← hs]; exact hmin⟩
      · simp at habs

/-- Claim C4, the per-note specification of duration assignment that the
code actually satisfies (as in the claim, with the worked example corrected:
see the counterexample theorem).  `b` is the note's duration in beats. -/
def QuantSpec (note : NoteEvent) (options : QuantizerOptions) (q : QuantizedNote) : Prop :=
  let b := note.duration / (60 / options.tempo)
  let allowed := allowedDurationsOf options.minQuantization
  (1/5 ≤ b → b ≤ 13/2 →
      q.duration ∈ allowed ∧ q.durationBeats = durationValue q.duration ∧
      ∀ d ∈ allowed, adjustedScore b q.duration ≤ adjustedScore b d) ∧
  (b < 1/5 →
      q.duration = allowed.getLastD .quarter ∧
      q.durationBeats = durationValue q.duration) ∧
  (13/2 < b → q.duration = .wholeDotted ∧ q.durationBeats = 6)

/-- Every allowed-duration vocabulary is non-empty. -/
theorem allowedDurationsOf_ne_nil (m : NoteDuration) : allowedDurationsOf m ≠ [] := by
  cases m <;> decide

/-- Claim C4 (amended): for every note, the quantizer assigns the allowed
duration symbol minimizing the adjusted score `|1 - b/candidateBeats|`
(plus `0.3` when the ratio is below `0.7`) whenever `0.2 ≤ b ≤ 6.5`; a note
with `b < 0.2` receives the shortest allowed symbol, and `b > 6.5` receives
whole-dotted (6 beats) regardless of the vocabulary. -/
theorem C4_quantize_duration_matching (notes : List NoteEvent)
    (options : QuantizerOptions) (i : ℕ) (note : NoteEvent)
    (h : notes[i]? = some note) :
    ∃ q, (quantizeNotes notes options)[i]? = some q ∧ QuantSpec note options q := by
  rw [quantizeNotes]
  simp only [List.getElem?_map, h, Option.map_some]
  refine ⟨_, rfl, ?_⟩
  dsimp only
  set b := note.duration / (60 / options.tempo) with hb
  set allowed := allowedDurationsOf options.minQuantization with hallowed
  refine ⟨?_, ?_, ?_⟩
  · intro h1 h2
    exact findBestDuration_min b allowed h1 h2 (allowedDurationsOf_ne_nil _)
  · intro hlt
    rw [findBestDuration.eq_def, if_pos hlt]
    exact ⟨rfl, rfl⟩
  · intro hgt
    have hnlt : ¬ b < 1/5 := by
      intro hc
      have h15 : (1:ℚ)/5 < 13/2 := by norm_num
      linarith
    rw [findBestDuration.eq_def, if_neg hnlt, if_pos hgt]
    exact ⟨rfl, rfl⟩

/-- Claim C4 counterexample to the worked example in the claim: a note of
exactly 1.0 s at tempo 120 BPM is 2 beats long, and quantizeNotes with
minQuantization sixteenth assigns durationSymbol half with durationBeats 2 —
not quarter with durationBeats 1 as the claim states. -/
theorem C4_one_second_note_is_half_counterexample :
    (quantizeNotes [⟨69, 0, 1, 80⟩] ⟨120, .sixteenth, none⟩).map
        (fun q => (q.duration, q.durationBeats)) = [(.half, 2)] ∧
    ¬ (quantizeNotes [⟨69, 0, 1, 80⟩] ⟨120, .sixteenth, none⟩).map
        (fun q => (q.duration, q.durationBeats)) = [(.quarter, 1)] := by
  have h : (quantizeNotes [⟨69, 0, 1, 80⟩] ⟨120, .sixteenth, none⟩).map
      (fun q => (q.duration, q.durationBeats)) = [(.half, 2)] := by
    norm_num [quantizeNotes, findBestDuration, bestDurationLoop, adjustedScore,
      durationValue, allowedDurationsOf, minQuantIndex, stripDotted, DURATION_ORDER,
      abs_of_nonneg, abs_of_nonpos]
  refine ⟨h, ?_⟩
  rw [h]
  intro hc
  simp at hc

/-- Concrete instantiation of the C4 theorem: the singleton melody with a
one-second note at 120 BPM. -/
theorem C4_quantize_duration_matching_witness :
    ∃ q, (quantizeNotes [⟨69, 0, 1, 80⟩] ⟨120, .sixteenth, none⟩)[0]? = some q ∧
      QuantSpec ⟨69, 0, 1, 80⟩ ⟨120, .sixteenth, none⟩ q :=
  C4_quantize_duration_matching [⟨69, 0, 1, 80⟩] ⟨120, .sixteenth, none⟩ 0 ⟨69, 0, 1, 80⟩ rfl

/-! ### Claim C2: recalculateDurations partitions the timeline -/

/-- TriadQuality from types/music. -/
inductive TriadQuality where
  | major | minor | diminished | augmented | sus2 | sus4 | power
  deriving DecidableEq, Repr

/-- SeventhType from types/music; the `null` value is `Option.none` at the
use sites. -/
inductive SeventhType where
  | major7 | minor7 | dominant7 | diminished7
  deriving DecidableEq, Repr

/-- ChordEvent from types/music.  The optional `extensions`, `alterations`,
`inversion` and `bassNote` fields are not read by any function verified
here (duration recalculation and chord suggestion neither read nor write
them) and are omitted. -/
structure ChordEvent where
  root : String
  triad : TriadQuality
  seventh : Option SeventhType := none
  startBeat : ℚ
  durationBeats : ℚ
  deriving DecidableEq, Repr

/-- The `[...chordList].sort((a, b) => a.startBeat - b.startBeat)` step: a
stable sort by startBeat. -/
def sortChordsByStart (l : List ChordEvent) : List ChordEvent :=
  l.mergeSort (fun a b => decide (a.startBeat ≤ b.startBeat))

/-- The indexed map of recalculateDurations: every chord's duration is
rewritten to reach the next chord's startBeat; the last chord reaches
`max(totalBeats, startBeat + beatsPerMeasure)`. -/
def recalcDurationsMap (totalBeats beatsPerMeasure : ℚ) : List ChordEvent → List ChordEvent
  | [] => []
  | [c] => [{ c with durationBeats := max totalBeats (c.startBeat + beatsPerMeasure) - c.startBeat }]
  | c :: c2 :: rest =>
      { c with durationBeats := c2.startBeat - c.startBeat } ::
        recalcDurationsMap totalBeats beatsPerMeasure (c2 :: rest)

/-- recalculateDurations (HarmonyPanel / chord track): sort by startBeat,
then rewrite durations so each chord extends to the next chord's start (or
to `max(totalBeats, startBeat + beatsPerMeasure)` for the last). -/
def recalculateDurations (totalBeats beatsPerMeasure : ℚ)
    (chordList : List ChordEvent) : List ChordEvent :=
  if chordList.length = 0 then chordList
  else recalcDurationsMap totalBeats beatsPerMeasure (sortChordsByStart chordList)

theorem recalcDurationsMap_startBeats (totalBeats beatsPerMeasure : ℚ) :
    ∀ l : List ChordEvent,
      (recalcDurationsMap totalBeats beatsPerMeasure l).map (·.startBeat) =
        l.map (·.startBeat)
  | [] => rfl
  | [c] => rfl
  | c :: c2 :: rest => by
      have ih := recalcDurationsMap_startBeats totalBeats beatsPerMeasure (c2 :: rest)
      simp [recalcDurationsMap] at ih ⊢
      exact ih

theorem recalcDurationsMap_ne_nil (totalBeats beatsPerMeasure : ℚ)
    (l : List ChordEvent) (h : l ≠ []) :
    recalcDurationsMap totalBeats beatsPerMeasure l ≠ [] := by
  match l with
  | [] => exact absurd rfl h
  | [c] => simp [recalcDurationsMap]
  | c :: c2 :: rest => simp [recalcDurationsMap]

theorem recalcDurationsMap_head_startBeat (totalBeats beatsPerMeasure : ℚ) :
    ∀ (c : ChordEvent) (l : List ChordEvent) (c0 : ChordEvent),
      (recalcDurationsMap totalBeats beatsPerMeasure (c :: l)).head? = some c0 →
      c0.startBeat = c.startBeat := by
  intro c l c0 h
  match l with
  | [] => simp [recalcDurationsMap] at h; rw [← h]
  | c2 :: rest => simp [recalcDurationsMap] at h; rw [← h]

/-- Adjacent chords in the recalculated list tile exactly: each end equals
the next start. -/
theorem recalcDurationsMap_chain (totalBeats beatsPerMeasure : ℚ) :
    ∀ l : List ChordEvent,
      (recalcDurationsMap totalBeats beatsPerMeasure l).Chain'
        (fun a b => a.startBeat + a.durationBeats = b.startBeat)
  | [] => List.chain'_nil
  | [c] => by simp [recalcDurationsMap]
  | c :: c2 :: rest => by
      have ih := recalcDurationsMap_chain totalBeats beatsPerMeasure (c2 :: rest)
      have hne := recalcDurationsMap_ne_nil totalBeats beatsPerMeasure (c2 :: rest) (by simp)
      rw [recalcDurationsMap]
      cases hh : (recalcDurationsMap totalBeats beatsPerMeasure (c2 :: rest)) with
      | nil => exact absurd hh hne
      | cons c0 rest' =>
          have hhd : c0.startBeat = c2.startBeat :=
            recalcDurationsMap_head_startBeat totalBeats beatsPerMeasure c2 rest c0
              (by rw [hh]; rfl)
          rw [hh] at ih
          refine List.Chain'.cons ?_ ih
          simp [hhd]

theorem recalcDurationsMap_last (totalBeats beatsPerMeasure : ℚ) :
    ∀ (l : List ChordEvent) (c : ChordEvent),
      (recalcDurationsMap totalBeats beatsPerMeasure l).getLast? = some c →
      totalBeats ≤ c.startBeat + c.durationBeats
  | [], c => by simp [recalcDurationsMap]
  | [c0], c => by
      intro h
      simp [recalcDurationsMap] at h
      rw [← h]
      simp
  | c0 :: c2 :: rest, c => by
      intro h
      have ih := recalcDurationsMap_last totalBeats beatsPerMeasure (c2 :: rest) c
      rw [recalcDurationsMap] at h
      cases hg : recalcDurationsMap totalBeats beatsPerMeasure (c2 :: rest) with
      | nil => exact absurd hg (recalcDurationsMap_ne_nil _ _ _ (by simp))
      | cons d ds =>
          rw [hg, List.getLast?_cons_cons] at h
          apply ih
          rw [hg]
          exact h

/-- Claim C2: for every non-empty chord list, the recalculated list is
sorted by startBeat, every chord's end (startBeat + durationBeats) equals
the next chord's startBeat, and the last chord's end is at least the
piece's total beats — so chord durations partition the timeline with no
gaps or overlaps. -/
theorem C2_recalculateDurations_invariant (totalBeats beatsPerMeasure : ℚ)
    (chordList : List ChordEvent) (hne : chordList ≠ []) :
    recalculateDurations totalBeats beatsPerMeasure chordList ≠ [] ∧
    (recalculateDurations totalBeats beatsPerMeasure chordList).Pairwise
        (fun a b => a.startBeat ≤ b.startBeat) ∧
    (recalculateDurations totalBeats beatsPerMeasure chordList).Chain'
        (fun a b => a.startBeat + a.durationBeats = b.startBeat) ∧
    ∀ c, (recalculateDurations totalBeats beatsPerMeasure chordList).getLast? = some c →
      totalBeats ≤ c.startBeat + c.durationBeats := by
  have hlen : ¬ chordList.length = 0 := by
    simpa [List.length_eq_zero] using hne
  have hsort_ne : sortChordsByStart chordList ≠ [] := by
    intro hc
    have : (sortChordsByStart chordList).length = chordList.length := by
      simp [sortChordsByStart]
    rw [hc] at this
    exact hlen this.symm
  have hsorted : (sortChordsByStart chordList).Pairwise
      (fun a b => a.startBeat ≤ b.startBeat) := by
    have h := @List.sorted_mergeSort _
      (fun a b : ChordEvent => decide (a.startBeat ≤ b.startBeat))
      (fun a b c hab hbc => by
        simp only [decide_eq_true_eq] at hab hbc ⊢
        exact le_trans hab hbc)
      (fun a b => by
        simp only [Bool.or_eq_true, decide_eq_true_eq]
        exact le_total _ _)
      chordList
    exact h.imp (by simp)
  unfold recalculateDurations
  rw [if_neg hlen]
  refine ⟨recalcDurationsMap_ne_nil _ _ _ hsort_ne, ?_, recalcDurationsMap_chain _ _ _,
    recalcDurationsMap_last _ _ _⟩
  have hmap := recalcDurationsMap_startBeats totalBeats beatsPerMeasure
    (sortChordsByStart chordList)
  rw [← List.pairwise_map (f := fun c : ChordEvent => c.startBeat) (R := (· ≤ ·))]
  rw [hmap]
  rw [List.pairwise_map]
  exact hsorted

/-- Concrete instantiation of the C2 theorem on a two-chord list. -/
theorem C2_recalculateDurations_invariant_witness :
    recalculateDurations 8 4 [⟨"C", .major, none, 0, 1⟩, ⟨"G", .major, none, 3, 1⟩] ≠ [] ∧
    (recalculateDurations 8 4 [⟨"C", .major, none, 0, 1⟩, ⟨"G", .major, none, 3, 1⟩]).Pairwise
        (fun a b => a.startBeat ≤ b.startBeat) ∧
    (recalculateDurations 8 4 [⟨"C", .major, none, 0, 1⟩, ⟨"G", .major, none, 3, 1⟩]).Chain'
        (fun a b => a.startBeat + a.durationBeats = b.startBeat) ∧
    ∀ c, (recalculateDurations 8 4
        [⟨"C", .major, none, 0, 1⟩, ⟨"G", .major, none, 3, 1⟩]).getLast? = some c →
      8 ≤ c.startBeat + c.durationBeats :=
  C2_recalculateDurations_invariant 8 4
    [⟨"C", .major, none, 0, 1⟩, ⟨"G", .major, none, 3, 1⟩] (by simp)

/-! ### Claim C9: filterShortNotes ∘ mergeConsecutiveNotes idempotence -/

/-- The body of mergeConsecutiveNotes' loop, carrying the running `current`
note.  A merge keeps `current`'s midi and startTime, extends its duration to
the end of `next`, and averages the velocity with `Math.round`. -/
def mergeLoop (maxGap : ℚ) (current : NoteEvent) : List NoteEvent → List NoteEvent
  | [] => [current]
  | next :: rest =>
      if next.midi = current.midi ∧
          next.startTime - (current.startTime + current.duration) < maxGap then
        mergeLoop maxGap
          { current with
              duration := next.startTime + next.duration - current.startTime,
              velocity := (jround ((current.velocity + next.velocity) / 2) : ℚ) } rest
      else
        current :: mergeLoop maxGap next rest

/-- mergeConsecutiveNotes from the note segmenter: lists of length ≤ 1 are
returned as-is. -/
def mergeConsecutiveNotes (notes : List NoteEvent) (maxGap : ℚ := 1/20) : List NoteEvent :=
  match notes with
  | [] => []
  | [n] => [n]
  | n :: rest => mergeLoop maxGap n rest

/-- filterShortNotes from the note segmenter. -/
def filterShortNotes (notes : List NoteEvent) (minDuration : ℚ := 1/20) : List NoteEvent :=
  notes.filter (fun note => minDuration ≤ note.duration)

/-- The composition named by the claim:
`filterShortNotes(mergeConsecutiveNotes(notes, gap), 0)`. -/
def mergeThenDrop (notes : List NoteEvent) (gap : ℚ) : List NoteEvent :=
  filterShortNotes (mergeConsecutiveNotes notes gap) 0

/-- Two adjacent notes that the merge loop's test declines to merge. -/
def notMergeable (gap : ℚ) (a b : NoteEvent) : Prop :=
  ¬ (b.midi = a.midi ∧ b.startTime - (a.startTime + a.duration) < gap)

/-- The merge loop emits a list headed by (a merged version of) `current` —
same midi and startTime — in which no adjacent pair is mergeable. -/
theorem mergeLoop_chain (gap : ℚ) :
    ∀ (l : List NoteEvent) (current : NoteEvent),
      (∃ c0 rest0, mergeLoop gap current l = c0 :: rest0 ∧
        c0.midi = current.midi ∧ c0.startTime = current.startTime) ∧
      (mergeLoop gap current l).Chain' (notMergeable gap)
  | [], current => by
      refine ⟨⟨current, [], by simp [mergeLoop], rfl, rfl⟩, ?_⟩
      simp [mergeLoop]
  | next :: rest, current => by
      rw [mergeLoop]
      by_cases hm : next.midi = current.midi ∧
          next.startTime - (current.startTime + current.duration) < gap
      · rw [if_pos hm]
        have ih := mergeLoop_chain gap rest
          { current with
              duration := next.startTime + next.duration - current.startTime,
              velocity := (jround ((current.velocity + next.velocity) / 2) : ℚ) }
        obtain ⟨⟨c0, rest0, he, hmidi, hstart⟩, hchain⟩ := ih
        exact ⟨⟨c0, rest0, he, hmidi, hstart⟩, hchain⟩
      · rw [if_neg hm]
        have ih := mergeLoop_chain gap rest next
        obtain ⟨⟨c0, rest0, he, hmidi, hstart⟩, hchain⟩ := ih
        refine ⟨⟨current, mergeLoop gap next rest, rfl, rfl, rfl⟩, ?_⟩
        rw [he] at hchain ⊢
        refine List.Chain'.cons ?_ hchain
        unfold notMergeable
        rw [hmidi, hstart]
        exact hm

/-- A list in which no adjacent pair is mergeable is a fixed point of the
merge loop. -/
theorem mergeLoop_of_chain (gap : ℚ) :
    ∀ (l : List NoteEvent) (current : NoteEvent),
      (current :: l).Chain' (notMergeable gap) →
      mergeLoop gap current l = current :: l
  | [], current => fun _ => by simp [mergeLoop]
  | next :: rest, current => fun h => by
      rw [mergeLoop]
      have hpair : notMergeable gap current next := (List.chain'_cons.mp h).1
      rw [if_neg hpair]
      rw [mergeLoop_of_chain gap rest next (List.chain'_cons.mp h).2]

/-- mergeConsecutiveNotes is the identity on lists with no mergeable
adjacent pair. -/
theorem mergeConsecutiveNotes_of_chain (gap : ℚ) (l : List NoteEvent)
    (h : l.Chain' (notMergeable gap)) :
    mergeConsecutiveNotes l gap = l := by
  match l with
  | [] => rfl
  | [n] => rfl
  | n :: m :: rest =>
      rw [show mergeConsecutiveNotes (n :: m :: rest) gap = mergeLoop gap n (m :: rest) from rfl]
      exact mergeLoop_of_chain gap (m :: rest) n h

/-- The output of mergeConsecutiveNotes has no mergeable adjacent pair
(for every input). -/
theorem mergeConsecutiveNotes_chain (gap : ℚ) (l : List NoteEvent) :
    (mergeConsecutiveNotes l gap).Chain' (notMergeable gap) := by
  match l with
  | [] => simp [mergeConsecutiveNotes]
  | [n] => simp [mergeConsecutiveNotes]
  | n :: m :: rest =>
      rw [show mergeConsecutiveNotes (n :: m :: rest) gap = mergeLoop gap n (m :: rest) from rfl]
      exact (mergeLoop_chain gap (m :: rest) n).2

/-- When the input is sorted by startTime with nonnegative durations, every
note produced by the merge loop has nonnegative duration. -/
theorem mergeLoop_durations_nonneg (gap : ℚ) :
    ∀ (l : List NoteEvent) (current : NoteEvent),
      (current :: l).Pairwise (fun a b => a.startTime ≤ b.startTime) →
      0 ≤ current.duration → (∀ n ∈ l, 0 ≤ n.duration) →
      ∀ m ∈ mergeLoop gap current l, 0 ≤ m.duration
  | [], current => by
      intro _ hcur _ m hm
      simp [mergeLoop] at hm
      rw [hm]
      exact hcur
  | next :: rest, current => by
      intro hsort hcur hall m hm
      rw [mergeLoop] at hm
      by_cases hcond : next.midi = current.midi ∧
          next.startTime - (current.startTime + current.duration) < gap
      · rw [if_pos hcond] at hm
        have hle : current.startTime ≤ next.startTime :=
          (List.pairwise_cons.mp hsort).1 next (by simp)
        have hnext : 0 ≤ next.duration := hall next (by simp)
        refine mergeLoop_durations_nonneg gap rest _ ?_ ?_ ?_ m hm
        · have htail := (List.pairwise_cons.mp hsort).2
          have htail2 := (List.pairwise_cons.mp htail).2
          have hhd := (List.pairwise_cons.mp htail).1
          refine List.pairwise_cons.mpr ⟨?_, htail2⟩
          intro a ha
          have h1 := (List.pairwise_cons.mp hsort).1 a (by simp [ha])
          exact h1
        · simp only
          linarith
        · intro n hn
          exact hall n (by simp [hn])
      · rw [if_neg hcond] at hm
        rcases List.mem_cons.mp hm with rfl | hm'
        · exact hcur
        · have htail := (List.pairwise_cons.mp hsort).2
          exact mergeLoop_durations_nonneg gap rest next htail
            (hall next (by simp)) (fun n hn => hall n (by simp [hn])) m hm'

/-- Claim C9 counterexample: with an out-of-order input list (legal
NoteEvents, all durations positive), a merge produces a negative-duration
note, `filterShortNotes(·, 0)` drops it, and the second pass then merges
the two now-adjacent same-pitch notes: applying the composition twice does
not equal applying it once. -/
theorem C9_mergeThenDrop_not_idempotent_counterexample :
    mergeThenDrop (mergeThenDrop
        [⟨60, 0, 1, 80⟩, ⟨99, 10, 1, 80⟩, ⟨99, 2, 1, 80⟩, ⟨60, 101/100, 1, 80⟩] (1/20)) (1/20) ≠
      mergeThenDrop
        [⟨60, 0, 1, 80⟩, ⟨99, 10, 1, 80⟩, ⟨99, 2, 1, 80⟩, ⟨60, 101/100, 1, 80⟩] (1/20) := by
  have h1 : mergeThenDrop
      [⟨60, 0, 1, 80⟩, ⟨99, 10, 1, 80⟩, ⟨99, 2, 1, 80⟩, ⟨60, 101/100, 1, 80⟩] (1/20) =
      [⟨60, 0, 1, 80⟩, ⟨60, 101/100, 1, 80⟩] := by
    norm_num [mergeThenDrop, mergeConsecutiveNotes, mergeLoop, filterShortNotes, jround]
  rw [h1]
  have h2 : mergeThenDrop [⟨60, 0, 1, 80⟩, ⟨60, 101/100, 1, 80⟩] (1/20) =
      [⟨60, 0, 201/100, 80⟩] := by
    norm_num [mergeThenDrop, mergeConsecutiveNotes, mergeLoop, filterShortNotes, jround]
  rw [h2]
  intro hc
  simp at hc

/-- Claim C9 (amended): on inputs that are sorted by startTime with
nonnegative durations — the data-model invariant for a monophonic note
list — the composition `filterShortNotes(mergeConsecutiveNotes(notes, gap), 0)`
is idempotent for every gap. -/
theorem C9_mergeThenDrop_idempotent (notes : List NoteEvent) (gap : ℚ)
    (hsort : notes.Pairwise (fun a b => a.startTime ≤ b.startTime))
    (hdur : ∀ n ∈ notes, 0 ≤ n.duration) :
    mergeThenDrop (mergeThenDrop notes gap) gap = mergeThenDrop notes gap := by
  have hnonneg : ∀ m ∈ mergeConsecutiveNotes notes gap, 0 ≤ m.duration := by
    match notes with
    | [] => simp [mergeConsecutiveNotes]
    | [n] =>
        intro m hm
        simp [mergeConsecutiveNotes] at hm
        rw [hm]
        exact hdur n (by simp)
    | n :: m0 :: rest =>
        rw [show mergeConsecutiveNotes (n :: m0 :: rest) gap = mergeLoop gap n (m0 :: rest) from rfl]
        exact mergeLoop_durations_nonneg gap (m0 :: rest) n hsort
          (hdur n (by simp)) (fun x hx => hdur x (by simp [hx]))
  have hfix : filterShortNotes (mergeConsecutiveNotes notes gap) 0 =
      mergeConsecutiveNotes notes gap := by
    rw [filterShortNotes]
    refine List.filter_eq_self.mpr ?_
    intro a ha
    simpa using hnonneg a ha
  have hfirst : mergeThenDrop notes gap = mergeConsecutiveNotes notes gap := by
    rw [mergeThenDrop, hfix]
  rw [hfirst, mergeThenDrop,
    mergeConsecutiveNotes_of_chain gap _ (mergeConsecutiveNotes_chain gap notes),
    filterShortNotes]
  exact List.filter_eq_self.mpr (fun a ha => by simpa using hnonneg a ha)

/-- Concrete instantiation of the C9 idempotence theorem on a sorted
two-note list. -/
theorem C9_mergeThenDrop_idempotent_witness :
    mergeThenDrop (mergeThenDrop [⟨60, 0, 1, 80⟩, ⟨60, 101/100, 1, 80⟩] (1/20)) (1/20) =
      mergeThenDrop [⟨60, 0, 1, 80⟩, ⟨60, 101/100, 1, 80⟩] (1/20) :=
  C9_mergeThenDrop_idempotent [⟨60, 0, 1, 80⟩, ⟨60, 101/100, 1, 80⟩] (1/20)
    (by norm_num) (by norm_num)

/-! ### Claims C5 and C8: tempo analysis from inter-onset intervals -/

/-- TempoAnalyzerOptions with the source defaults. -/
structure TempoAnalyzerOptions where
  minBPM : ℚ := 60
  maxBPM : ℚ := 180
  histogramBinSize : ℚ := 1/100
  deriving DecidableEq, Repr

/-- TempoResult; `bpm` carries the `Math.round`ed value. -/
structure TempoResult where
  bpm : ℤ
  confidence : ℚ
  alternativeBPMs : List ℤ
  deriving DecidableEq, Repr

/-- calculateIOIs: consecutive inter-onset intervals, then halved
two-apart intervals, each filtered to the plausible range 0.1s–2.0s. -/
def calculateIOIs (onsets : List ℚ) : List ℚ :=
  ((onsets.zip onsets.tail).map (fun p => p.2 - p.1)).filter
      (fun ioi => 1/10 ≤ ioi ∧ ioi ≤ 2) ++
    ((onsets.zip (onsets.drop 2)).map (fun p => (p.2 - p.1) / 2)).filter
      (fun ioi => 1/10 ≤ ioi ∧ ioi ≤ 2)

/-- One `histogram.set(bin, (histogram.get(bin) || 0) + 1)` step on a
JavaScript Map modelled as an insertion-ordered association list. -/
def histAdd (h : List (ℚ × ℕ)) (bin : ℚ) : List (ℚ × ℕ) :=
  match h with
  | [] => [(bin, 1)]
  | (k, c) :: rest => if k = bin then (k, c + 1) :: rest else (k, c) :: histAdd rest bin

/-- Map.get with the `|| 0` fallback. -/
def histGet (h : List (ℚ × ℕ)) (k : ℚ) : ℕ :=
  match h with
  | [] => 0
  | (k0, c) :: rest => if k0 = k then c else histGet rest k

/-- buildIOIHistogram: quantize each in-range IOI to a 10ms bin. -/
def buildIOIHistogram (iois : List ℚ) (binSize minBPM maxBPM : ℚ) : List (ℚ × ℕ) :=
  let minIOI := 60 / maxBPM
  let maxIOI := 60 / minBPM
  iois.foldl (fun h ioi =>
    if ioi < minIOI ∨ maxIOI < ioi then h
    else histAdd h ((jround (ioi / binSize) : ℚ) * binSize)) []

/-- findDominantIOI: 3-bin smoothing, stable sort by count descending,
confidence against a 30%-dominance baseline, and the two harmonic
(double-time / half-time) override checks.  The source's nested
`if (outer) { if (inner) return ... } ` blocks fall through when the inner
test fails, which flattens to the conjunctions below.  `minBPM`/`maxBPM`
are accepted and ignored exactly as in the source. -/
def findDominantIOI (histogram : List (ℚ × ℕ)) (binSize minBPM maxBPM : ℚ) : ℚ × ℚ :=
  if histogram = [] then (1/2, 0)
  else
    let peaks := histogram.map (fun p =>
      (p.1, p.2 + histGet histogram (p.1 - binSize) + histGet histogram (p.1 + binSize)))
    match peaks.mergeSort (fun a b => decide (b.2 ≤ a.2)) with
    | [] => (1/2, 0)
    | topPeak :: restPeaks =>
        let totalCounts : ℕ := ((topPeak :: restPeaks).map (·.2)).sum
        let confidence := min 1 ((topPeak.2 : ℚ) / ((totalCounts : ℚ) * (3/10)))
        match restPeaks with
        | [] => (topPeak.1, confidence)
        | second :: _ =>
            let ratio := second.1 / topPeak.1
            if |ratio - 2| < 1/10 ∧ (topPeak.2 : ℚ) * (1/2) < (second.2 : ℚ) ∧
                140 < 60 / topPeak.1 ∧ 60 ≤ 60 / second.1 ∧ 60 / second.1 ≤ 120 then
              (second.1, confidence * (9/10))
            else if |ratio - 1/2| < 1/20 ∧ (topPeak.2 : ℚ) * (7/10) < (second.2 : ℚ) ∧
                80 ≤ 60 / second.1 ∧ 60 / second.1 ≤ 140 then
              (second.1, confidence * (9/10))
            else (topPeak.1, confidence)

/-- analyzeTempo from tempoAnalyzer.ts. -/
def analyzeTempo (onsets : List ℚ) (options : TempoAnalyzerOptions := {}) : TempoResult :=
  if onsets.length < 4 then
    { bpm := 120, confidence := 0, alternativeBPMs := [60, 240] }
  else
    let iois := calculateIOIs onsets
    let histogram := buildIOIHistogram iois options.histogramBinSize options.minBPM options.maxBPM
    let res := findDominantIOI histogram options.histogramBinSize options.minBPM options.maxBPM
    let bpm := 60 / res.1
    { bpm := jround bpm
      confidence := res.2
      alternativeBPMs := ([jround (bpm / 2), jround (bpm * 2)]).filter
        (fun b => options.minBPM ≤ (b : ℚ) ∧ (b : ℚ) ≤ options.maxBPM * 2) }

/-- Claim C8: with fewer than 4 onsets, analyzeTempo returns exactly the
fixed fallback — 120 BPM with confidence 0 (and alternatives 60/240) —
for every option set; the function is total, so it cannot throw. -/
theorem C8_analyzeTempo_fallback (onsets : List ℚ) (options : TempoAnalyzerOptions)
    (h : onsets.length < 4) :
    analyzeTempo onsets options =
      { bpm := 120, confidence := 0, alternativeBPMs := [60, 240] } := by
  rw [analyzeTempo, if_pos h]

/-- Concrete instantiation of the C8 theorem on a three-onset list. -/
theorem C8_analyzeTempo_fallback_witness :
    analyzeTempo [0, 1/2, 1] {} =
      { bpm := 120, confidence := 0, alternativeBPMs := [60, 240] } :=
  C8_analyzeTempo_fallback [0, 1/2, 1] {} (by norm_num)

/-- Claim C5: on an exact 120 BPM metronome click train (16 onsets 0.5 s
apart), analyzeTempo with default options reports a bpm in [118, 122] and
a confidence strictly above 0.5 (here exactly bpm 120, confidence 1). -/
theorem C5_analyzeTempo_metronome :
    118 ≤ (analyzeTempo [0, 1/2, 1, 3/2, 2, 5/2, 3, 7/2, 4, 9/2,
        5, 11/2, 6, 13/2, 7, 15/2] {}).bpm ∧
    (analyzeTempo [0, 1/2, 1, 3/2, 2, 5/2, 3, 7/2, 4, 9/2,
        5, 11/2, 6, 13/2, 7, 15/2] {}).bpm ≤ 122 ∧
    1/2 < (analyzeTempo [0, 1/2, 1, 3/2, 2, 5/2, 3, 7/2, 4, 9/2,
        5, 11/2, 6, 13/2, 7, 15/2] {}).confidence := by
  have h : analyzeTempo [0, 1/2, 1, 3/2, 2, 5/2, 3, 7/2, 4, 9/2,
      5, 11/2, 6, 13/2, 7, 15/2] {} =
      { bpm := 120, confidence := 1, alternativeBPMs := [60, 240] } := by
    norm_num [analyzeTempo, calculateIOIs, buildIOIHistogram, histAdd, histGet,
      findDominantIOI, jround, List.mergeSort]
  rw [h]
  norm_num

/-! ### Claim C6: onset peak-picking and the minimum-gap guarantee

The spectral-flux front end of detectOnsets (calculateSpectralFlux: a
Hann-windowed floating-point DFT over Math.cos/Math.sin) computes
transcendental values that have no exact computable embedding; the flux
sequence is therefore taken as the input here, and pickPeaks together with
the frame→seconds conversion of detectOnsets (its lines after the flux
computation) are translated exactly.  Quantifying over all flux sequences
covers all input signals. -/

/-- OnsetDetectorOptions with the source defaults.  `windowSize` only
affects the flux computation and is unused from the flux stage on. -/
structure OnsetDetectorOptions where
  sampleRate : ℚ
  windowSize : ℚ := 2048
  hopSize : ℚ := 512
  threshold : ℚ := 3/2
  minOnsetGap : ℚ := 1/20
  deriving DecidableEq, Repr

/-- The adaptive-threshold window around frame `i`:
`[max(0, i-10), min(length, i+11))`. -/
def windowOf (flux : List ℚ) (i : ℕ) : List ℚ :=
  let windowStart := i - 10
  let windowEnd := min flux.length (i + 11)
  (flux.drop windowStart).take (windowEnd - windowStart)

/-- Decides `mean + k * sqrt(max 0 variance) < fluxI` over exact rationals
(the source computes `stddev = Math.sqrt(Math.max(0, variance))` and
compares `flux[i] > mean + k*stddev`); since the square root is the only
irrational value involved, the comparison is equivalent to the sign and
squared comparisons below — see the lemma `gtMeanPlusStd_iff`. -/
def gtMeanPlusStd (fluxI mean variance k : ℚ) : Bool :=
  let d := fluxI - mean
  let v := max 0 variance
  if 0 ≤ k then decide (0 < d) && decide (k ^ 2 * v < d ^ 2)
  else decide (0 < d) || decide (d ^ 2 < k ^ 2 * v)

/-- The Boolean test is exactly the source's real-number comparison
`flux[i] > mean + k·√(max 0 variance)`. -/
theorem gtMeanPlusStd_iff (fluxI mean variance k : ℚ) :
    gtMeanPlusStd fluxI mean variance k = true ↔
      (mean : ℝ) + (k : ℝ) * Real.sqrt (max 0 (variance : ℝ)) < (fluxI : ℝ) := by
  set s : ℝ := Real.sqrt (max 0 (variance : ℝ)) with hs
  have hsnn : 0 ≤ s := Real.sqrt_nonneg _
  have hs2 : s ^ 2 = max 0 (variance : ℝ) := Real.sq_sqrt (le_max_left _ _)
  have hvcast : ((max 0 variance : ℚ) : ℝ) = max 0 (variance : ℝ) := by
    push_cast
    rfl
  rw [gtMeanPlusStd]
  by_cases hk : 0 ≤ k
  · rw [if_pos hk]
    simp only [Bool.and_eq_true, decide_eq_true_eq]
    constructor
    · rintro ⟨hd, hsq⟩
      have hd' : (0 : ℝ) < (fluxI : ℝ) - mean := by exact_mod_cast hd
      have hsq' : (k : ℝ) ^ 2 * max 0 (variance : ℝ) < ((fluxI : ℝ) - mean) ^ 2 := by
        rw [← hvcast]
        exact_mod_cast hsq
      have hk' : (0 : ℝ) ≤ k := by exact_mod_cast hk
      by_contra hcon
      push_neg at hcon
      have hks : (fluxI : ℝ) - mean ≤ k * s := by linarith
      nlinarith [mul_nonneg hk' hsnn]
    · intro h
      have hks : (k : ℝ) * s < (fluxI : ℝ) - mean := by linarith
      have hksnn : (0 : ℝ) ≤ k * s := mul_nonneg (by exact_mod_cast hk) hsnn
      have hd' : (0 : ℝ) < (fluxI : ℝ) - mean := lt_of_le_of_lt hksnn hks
      refine ⟨by exact_mod_cast hd', ?_⟩
      have : (k : ℝ) ^ 2 * max 0 (variance : ℝ) < ((fluxI : ℝ) - mean) ^ 2 := by
        nlinarith
      rw [← hvcast] at this
      exact_mod_cast this
  · rw [if_neg hk]
    simp only [Bool.or_eq_true, decide_eq_true_eq]
    have hk' : (k : ℝ) < 0 := by exact_mod_cast not_le.mp hk
    have hksnp : (k : ℝ) * s ≤ 0 := mul_nonpos_of_nonpos_of_nonneg (le_of_lt hk') hsnn
    constructor
    · rintro (hd | hsq)
      · have hd' : (0 : ℝ) < (fluxI : ℝ) - mean := by exact_mod_cast hd
        linarith
      · have hsq' : ((fluxI : ℝ) - mean) ^ 2 < (k : ℝ) ^ 2 * max 0 (variance : ℝ) := by
          rw [← hvcast]
          exact_mod_cast hsq
        nlinarith
    · intro h
      by_cases hd : (0 : ℚ) < fluxI - mean
      · exact Or.inl hd
      · refine Or.inr ?_
        have hd' : (fluxI : ℝ) - mean ≤ 0 := by
          have := not_lt.mp hd
          exact_mod_cast this
        have : ((fluxI : ℝ) - mean) ^ 2 < (k : ℝ) ^ 2 * max 0 (variance : ℝ) := by
          nlinarith
        rw [← hvcast] at this
        exact_mod_cast this

/-- The main loop of pickPeaks.  The accumulator holds the accepted onset
frames most-recent-first (`push` prepends, the replace-previous branch
rewrites the head); `fuel` bounds the remaining iterations and is passed as
`flux.length`, which covers every index the source loop visits. -/
def pickPeaksLoop (flux : List ℚ) (k : ℚ) (minGapFrames : ℤ) :
    ℕ → ℕ → List ℕ → List ℕ
  | 0, _, revOnsets => revOnsets
  | fuel + 1, i, revOnsets =>
      if i + 1 < flux.length then
        let fi := flux.getD i 0
        if fi ≤ flux.getD (i - 1) 0 ∨ fi ≤ flux.getD (i + 1) 0 then
          pickPeaksLoop flux k minGapFrames fuel (i + 1) revOnsets
        else
          let win := windowOf flux i
          let count : ℚ := win.length
          let mean := win.sum / count
          let variance := (win.map fun x => x * x).sum / count - mean * mean
          if gtMeanPlusStd fi mean variance k then
            match revOnsets with
            | [] => pickPeaksLoop flux k minGapFrames fuel (i + 1) [i]
            | last :: rest =>
                if minGapFrames ≤ (i : ℤ) - (last : ℤ) then
                  pickPeaksLoop flux k minGapFrames fuel (i + 1) (i :: last :: rest)
                else if flux.getD last 0 < fi then
                  pickPeaksLoop flux k minGapFrames fuel (i + 1) (i :: rest)
                else
                  pickPeaksLoop flux k minGapFrames fuel (i + 1) (last :: rest)
          else
            pickPeaksLoop flux k minGapFrames fuel (i + 1) revOnsets
      else revOnsets

/-- pickPeaks from onsetDetector.ts: adaptive-threshold peak picking over
the spectral flux, returning onset frame indices in ascending order. -/
def pickPeaks (spectralFlux : List ℚ)
    (thresholdMultiplier minOnsetGap : ℚ) (hopSize sampleRate : ℚ) : List ℕ :=
  if spectralFlux.length = 0 then []
  else
    let minGapFrames : ℤ := ⌊minOnsetGap * sampleRate / hopSize⌋
    (pickPeaksLoop spectralFlux thresholdMultiplier minGapFrames
      spectralFlux.length 1 []).reverse

/-- The flux-onward portion of detectOnsets: pick peaks, then convert frame
indices to seconds by `frame * hopSize / sampleRate`. -/
def detectOnsetsFromFlux (spectralFlux : List ℚ) (options : OnsetDetectorOptions) : List ℚ :=
  (pickPeaks spectralFlux options.threshold options.minOnsetGap
      options.hopSize options.sampleRate).map
    (fun frame : ℕ => ((frame : ℚ) * options.hopSize) / options.sampleRate)

/-- Loop invariant: the reversed onset list descends, adjacent accepted
frames are at least minGapFrames apart, and every accepted frame is below
the cursor. -/
theorem pickPeaksLoop_chain (flux : List ℚ) (k : ℚ) (m : ℤ) :
    ∀ (fuel i : ℕ) (rev : List ℕ),
      (∀ x ∈ rev, x < i) →
      rev.Chain' (fun b a : ℕ => a < b ∧ m ≤ (b : ℤ) - (a : ℤ)) →
      (∀ x ∈ pickPeaksLoop flux k m fuel i rev, x < i + fuel) ∧
      (pickPeaksLoop flux k m fuel i rev).Chain'
        (fun b a : ℕ => a < b ∧ m ≤ (b : ℤ) - (a : ℤ)) := by
  intro fuel
  induction fuel with
  | zero =>
      intro i rev hlt hchain
      rw [pickPeaksLoop]
      exact ⟨fun x hx => Nat.lt_of_lt_of_le (hlt x hx) (by omega), hchain⟩
  | succ n ih =>
      intro i rev hlt hchain
      rw [pickPeaksLoop]
      by_cases hcont : i + 1 < flux.length
      · rw [if_pos hcont]
        simp only
        set fi := flux.getD i 0 with hfi
        by_cases hpeak : fi ≤ flux.getD (i - 1) 0 ∨ fi ≤ flux.getD (i + 1) 0
        · rw [if_pos hpeak]
          have := ih (i + 1) rev (fun x hx => Nat.lt_succ_of_lt (hlt x hx)) hchain
          exact ⟨fun x hx => by have := this.1 x hx; omega, this.2⟩
        · rw [if_neg hpeak]
          by_cases hthr : gtMeanPlusStd fi
              ((windowOf flux i).sum / ((windowOf flux i).length : ℚ))
              (((windowOf flux i).map fun x => x * x).sum / ((windowOf flux i).length : ℚ) -
                ((windowOf flux i).sum / ((windowOf flux i).length : ℚ)) *
                  ((windowOf flux i).sum / ((windowOf flux i).length : ℚ))) k = true
          · rw [if_pos hthr]
            cases rev with
            | nil =>
                have := ih (i + 1) [i] (by simp) (by simp)
                exact ⟨fun x hx => by have := this.1 x hx; omega, this.2⟩
            | cons last rest =>
                dsimp only
                have hlast : last < i := hlt last (by simp)
                by_cases hgap : m ≤ (i : ℤ) - (last : ℤ)
                · rw [if_pos hgap]
                  have hch : (i :: last :: rest).Chain'
                      (fun b a : ℕ => a < b ∧ m ≤ (b : ℤ) - (a : ℤ)) :=
                    List.Chain'.cons ⟨hlast, hgap⟩ hchain
                  have hbd : ∀ x ∈ i :: last :: rest, x < i + 1 := by
                    intro x hx
                    rcases List.mem_cons.mp hx with rfl | hx'
                    · omega
                    · exact Nat.lt_succ_of_lt (hlt x (by simp [hx']))
                  have := ih (i + 1) (i :: last :: rest) hbd hch
                  exact ⟨fun x hx => by have := this.1 x hx; omega, this.2⟩
                · rw [if_neg hgap]
                  have hrepl : (i :: rest).Chain'
                      (fun b a : ℕ => a < b ∧ m ≤ (b : ℤ) - (a : ℤ)) := by
                    cases rest with
                    | nil => simp
                    | cons r rs =>
                        have hpair := (List.chain'_cons.mp hchain).1
                        refine List.Chain'.cons ⟨?_, ?_⟩ (List.chain'_cons.mp hchain).2
                        · omega
                        · omega
                  have hbd : ∀ x ∈ i :: rest, x < i + 1 := by
                    intro x hx
                    rcases List.mem_cons.mp hx with rfl | hx'
                    · omega
                    · exact Nat.lt_succ_of_lt (hlt x (by simp [hx']))
                  by_cases hstr : flux.getD last 0 < fi
                  · rw [if_pos hstr]
                    have := ih (i + 1) (i :: rest) hbd hrepl
                    exact ⟨fun x hx => by have := this.1 x hx; omega, this.2⟩
                  · rw [if_neg hstr]
                    have := ih (i + 1) (last :: rest)
                      (fun x hx => Nat.lt_succ_of_lt (hlt x hx)) hchain
                    exact ⟨fun x hx => by have := this.1 x hx; omega, this.2⟩
          · rw [if_neg hthr]
            have := ih (i + 1) rev (fun x hx => Nat.lt_succ_of_lt (hlt x hx)) hchain
            exact ⟨fun x hx => by have := this.1 x hx; omega, this.2⟩
      · rw [if_neg hcont]
        exact ⟨fun x hx => Nat.lt_of_lt_of_le (hlt x hx) (by omega), hchain⟩

/-- Claim C6 (amended): for every spectral-flux sequence and option set
(with positive hopSize and sampleRate), the onset times are strictly
increasing and consecutive onsets are separated by at least
`⌊minOnsetGap·sampleRate/hopSize⌋ · hopSize / sampleRate` seconds — the
frame-quantized gap, which can be smaller than minOnsetGap itself (see the
counterexample). -/
theorem C6_detectOnsets_spacing (flux : List ℚ) (options : OnsetDetectorOptions)
    (hhop : 0 < options.hopSize) (hsr : 0 < options.sampleRate) :
    (detectOnsetsFromFlux flux options).Chain'
      (fun t1 t2 => t1 < t2 ∧
        (⌊options.minOnsetGap * options.sampleRate / options.hopSize⌋ : ℚ) *
          options.hopSize / options.sampleRate ≤ t2 - t1) := by
  set m : ℤ := ⌊options.minOnsetGap * options.sampleRate / options.hopSize⌋ with hm
  have hframes : (pickPeaks flux options.threshold options.minOnsetGap
      options.hopSize options.sampleRate).Chain'
      (fun a b : ℕ => a < b ∧ m ≤ (b : ℤ) - (a : ℤ)) := by
    rw [pickPeaks]
    by_cases hflux : flux.length = 0
    · rw [if_pos hflux]
      simp
    · rw [if_neg hflux]
      have hloop := pickPeaksLoop_chain flux options.threshold m flux.length 1 []
        (by simp) (by simp)
      rw [List.chain'_reverse]
      exact hloop.2
  rw [detectOnsetsFromFlux]
  refine (List.chain'_map (fun frame : ℕ =>
      ((frame : ℚ) * options.hopSize) / options.sampleRate)).mpr (hframes.imp ?_)
  intro a b hab
  have hfrac : 0 < options.hopSize / options.sampleRate := div_pos hhop hsr
  constructor
  · have hablt : (a : ℚ) < (b : ℚ) := by exact_mod_cast hab.1
    calc (a : ℚ) * options.hopSize / options.sampleRate
        = (a : ℚ) * (options.hopSize / options.sampleRate) := by ring
      _ < (b : ℚ) * (options.hopSize / options.sampleRate) := by
          exact mul_lt_mul_of_pos_right hablt hfrac
      _ = (b : ℚ) * options.hopSize / options.sampleRate := by ring
  · have hgap : (m : ℚ) ≤ (b : ℚ) - (a : ℚ) := by exact_mod_cast hab.2
    have := mul_le_mul_of_nonneg_right hgap (le_of_lt hfrac)
    calc (m : ℚ) * options.hopSize / options.sampleRate
        = (m : ℚ) * (options.hopSize / options.sampleRate) := by ring
      _ ≤ ((b : ℚ) - (a : ℚ)) * (options.hopSize / options.sampleRate) := this
      _ = (b : ℚ) * options.hopSize / options.sampleRate -
            (a : ℚ) * options.hopSize / options.sampleRate := by ring

/-- Concrete instantiation of the C6 spacing theorem. -/
theorem C6_detectOnsets_spacing_witness :
    (detectOnsetsFromFlux [0, 5, 1, 6, 0, 0, 0, 0, 0, 0, 0, 0, 0, 0]
        { sampleRate := 25600 }).Chain'
      (fun t1 t2 => t1 < t2 ∧
        ((⌊(({ sampleRate := 25600 } : OnsetDetectorOptions).minOnsetGap * 25600 / 512)⌋ : ℚ) *
          512 / 25600 ≤ t2 - t1)) :=
  C6_detectOnsets_spacing [0, 5, 1, 6, 0, 0, 0, 0, 0, 0, 0, 0, 0, 0]
    { sampleRate := 25600 } (by norm_num) (by norm_num)

set_option maxHeartbeats 2000000 in
/-- Claim C6 counterexample: with the default options (hopSize 512,
minOnsetGap 0.05) at sampleRate 25600, the flux sequence below produces
accepted peaks at frames 1 and 3 (minGapFrames = ⌊2.5⌋ = 2 allows a
2-frame gap), i.e. onsets at 0.02 s and 0.06 s — only 0.04 s < 0.05 s
apart, violating the claimed minimum spacing of minOnsetGap seconds. -/
theorem C6_min_gap_violated_counterexample :
    detectOnsetsFromFlux [0, 5, 1, 6, 0, 0, 0, 0, 0]
        { sampleRate := 25600 } = [1/50, 3/50] ∧
    (3/50 : ℚ) - 1/50 <
      ({ sampleRate := 25600 } : OnsetDetectorOptions).minOnsetGap := by
  have hfl : (⌊({ sampleRate := 25600 } : OnsetDetectorOptions).minOnsetGap *
      ({ sampleRate := 25600 } : OnsetDetectorOptions).sampleRate /
      ({ sampleRate := 25600 } : OnsetDetectorOptions).hopSize⌋ : ℤ) = 2 := by
    show (⌊(1/20 : ℚ) * 25600 / 512⌋ : ℤ) = 2
    norm_num [Int.floor_eq_iff]
  constructor
  · rw [detectOnsetsFromFlux, pickPeaks]
    rw [if_neg (by norm_num : ¬ ([0, 5, 1, 6, 0, 0, 0, 0, 0] : List ℚ).length = 0)]
    rw [hfl]
    norm_num [pickPeaksLoop, windowOf, gtMeanPlusStd, jround]
  · norm_num

/-! ### Harmonizer (claims C3, C7, C10)

Embedding of the interval-style harmonizer (HarmonyStyle, scale tables,
counterpoint scoring, SATB) from the harmonizer module; the repository
carries two near-identical copies of these functions (the second adds
chord-progression-driven styles on top), and every function verified here
is textually identical in both. -/

/-- The nine interval/SATB harmony styles. -/
inductive HarmonyStyle where
  | thirdsAbove | thirdsBelow | sixthsAbove | sixthsBelow
  | powerFifths | triads | fourPart | octaveDouble | parallelThirdsSixths
  deriving DecidableEq, Repr

/-- HarmonyVoice: a generated voice with its display name and color. -/
structure HarmonyVoice where
  name : String
  notes : List NoteEvent
  color : String
  deriving DecidableEq, Repr

/-- HarmonyResult: the untouched melody plus the generated voices. -/
structure HarmonyResult where
  melody : List NoteEvent
  voices : List HarmonyVoice
  deriving DecidableEq, Repr

/-- MAJOR_SCALE (semitones from root). -/
def MAJOR_SCALE : List ℤ := [0, 2, 4, 5, 7, 9, 11]

/-- MINOR_SCALE (natural minor). -/
def MINOR_SCALE : List ℤ := [0, 2, 3, 5, 7, 8, 10]

/-- KEY_ROOTS table (C=0, C#=1, ...). -/
def KEY_ROOTS : List (String × ℤ) :=
  [("C", 0), ("C#", 1), ("Db", 1), ("D", 2), ("D#", 3), ("Eb", 3),
   ("E", 4), ("F", 5), ("F#", 6), ("Gb", 6), ("G", 7), ("G#", 8),
   ("Ab", 8), ("A", 9), ("A#", 10), ("Bb", 10), ("B", 11)]

/-- String-keyed record lookup (`RECORD[key]`). -/
def lookupStr (l : List (String × ℤ)) (k : String) : Option ℤ :=
  match l with
  | [] => none
  | (k0, v) :: rest => if k0 = k then some v else lookupStr rest k

/-- `KEY_ROOTS[key] ?? 0`: unknown keys silently become root 0 (C). -/
def keyRootOf (key : String) : ℤ := (lookupStr KEY_ROOTS key).getD 0

/-- getScaleNotes: pitch classes of the key's scale. -/
def getScaleNotes (key : String) (isMinor : Bool) : List ℤ :=
  let root := keyRootOf key
  let scale := if isMinor then MINOR_SCALE else MAJOR_SCALE
  scale.map (fun interval => (root + interval).tmod 12)

/-- Index of the first occurrence of `x`, as `Array.indexOf` (but with the
miss case split off as `none` instead of -1). -/
def idxOf? (l : List ℤ) (x : ℤ) : Option ℕ :=
  match l with
  | [] => none
  | y :: rest => if y = x then some 0 else (idxOf? rest x).map (· + 1)

/-- The nearest-scale-note scan of getScaleDegree (taken when the pitch
class is not in the scale), tracking the minimal circular distance. -/
def nearestDegreeLoop (pc : ℤ) : List ℤ → ℕ → ℤ → ℤ → ℤ
  | [], _, _, deg => deg
  | n :: rest, i, minDist, deg =>
      let dist := min |pc - n| (12 - |pc - n|)
      if dist < minDist then nearestDegreeLoop pc rest (i + 1) dist (i : ℤ)
      else nearestDegreeLoop pc rest (i + 1) minDist deg

/-- getScaleDegree: the scale degree (0–6) of a MIDI note (nearest degree
when the note is out of scale; the scan always updates from its initial
`-1` because every circular distance is below the initial 12). -/
def getScaleDegree (midiNote : ℤ) (key : String) (isMinor : Bool) : ℤ :=
  let scaleNotes := getScaleNotes key isMinor
  let noteInOctave := midiNote.tmod 12
  match idxOf? scaleNotes noteInOctave with
  | some i => (i : ℤ)
  | none => nearestDegreeLoop noteInOctave scaleNotes 0 12 (-1)

/-- getChordTones: root/third/fifth scale notes for a scale degree. -/
def getChordTones (scaleDegree : ℤ) (key : String) (isMinor : Bool) : List ℤ :=
  let scaleNotes := getScaleNotes key isMinor
  let root := scaleNotes.getD scaleDegree.toNat 0
  let third := scaleNotes.getD ((scaleDegree + 2).tmod 7).toNat 0
  let fifth := scaleNotes.getD ((scaleDegree + 4).tmod 7).toNat 0
  [root, third, fifth]

/-- hasParallelPerfect: both voice pairs at the same normalized perfect
interval (unison/octave 0, fifth 7, or fourth 5) and moving in the same
nonzero direction. -/
def hasParallelPerfect (prevNote1 currNote1 prevNote2 currNote2 : ℤ) : Bool :=
  let prevInterval := |prevNote1 - prevNote2|.tmod 12
  let currInterval := |currNote1 - currNote2|.tmod 12
  let prevIsPerfect := prevInterval = 0 ∨ prevInterval = 7 ∨ prevInterval = 5
  let currIsPerfect := currInterval = 0 ∨ currInterval = 7 ∨ currInterval = 5
  if ¬prevIsPerfect ∨ ¬currIsPerfect then false
  else if prevInterval ≠ currInterval then false
  else
    let direction1 := (currNote1 - prevNote1).sign
    let direction2 := (currNote2 - prevNote2).sign
    decide (direction1 = direction2 ∧ direction1 ≠ 0)

/-- A voice range (fixed MIDI band). -/
structure VoiceRange where
  lo : ℤ
  hi : ℤ
  deriving DecidableEq, Repr

/-- The `while (midi < range.min) midi += 12` loop of constrainToRange. -/
def raiseToMin (lo midi : ℤ) : ℤ :=
  if midi < lo then raiseToMin lo (midi + 12) else midi
  termination_by (lo - midi).toNat
  decreasing_by omega

/-- The `while (midi > range.max) midi -= 12` loop of constrainToRange. -/
def lowerToMax (hi midi : ℤ) : ℤ :=
  if hi < midi then lowerToMax hi (midi - 12) else midi
  termination_by (midi - hi).toNat
  decreasing_by omega

/-- constrainToRange: raise below-range notes by octaves, then lower
above-range notes by octaves. -/
def constrainToRange (midi : ℤ) (range : VoiceRange) : ℤ :=
  lowerToMax range.hi (raiseToMin range.lo midi)

/-- The candidate score of findBestHarmonyNote, exactly the sequence of
additions and penalties applied by the source. -/
def harmonyCandidateScore (melodyNote targetInterval : ℤ) (prevM prevH : ℤ)
    (candidate : ℤ) (octaveOffset : ℤ) (preferContraryMotion : Bool) : ℤ :=
  100
  + (if hasParallelPerfect prevM melodyNote prevH candidate then -50 else 0)
  + (if targetInterval < 0 ∧ melodyNote < candidate then -40 else 0)
  + (if 0 < targetInterval ∧ candidate < melodyNote then -40 else 0)
  + (if preferContraryMotion then
       (let melodyDirection := (melodyNote - prevM).sign
        let harmonyDirection := (candidate - prevH).sign
        if melodyDirection ≠ 0 ∧ harmonyDirection ≠ 0 then
          (if melodyDirection ≠ harmonyDirection then 20 else -10)
        else 0)
     else 0)
  + (let harmonyMotion := |candidate - prevH|
     if harmonyMotion ≤ 2 then 15
     else if harmonyMotion ≤ 4 then 5
     else if 7 < harmonyMotion then -10
     else 0)
  + (if octaveOffset = 0 then 10 else 0)

/-- findBestHarmonyNote: compute the scale-degree-shifted target pitch,
constrain it to the voice range, and — once a previous melody/harmony pair
exists — score the in-range ±1-octave candidates and return the best
(the candidates are sorted by score descending with a stable sort, so ties
go to the lower octave offset, and the head is taken). -/
def findBestHarmonyNote (melodyNote targetInterval : ℤ) (voiceRange : VoiceRange)
    (prevMelodyNote prevHarmonyNote : Option ℤ) (key : String) (isMinor : Bool)
    (preferContraryMotion : Bool := true) : ℤ :=
  let scaleNotes := getScaleNotes key isMinor
  let melodyScaleDegree := getScaleDegree melodyNote key isMinor
  let melodyOctave := melodyNote.fdiv 12
  let targetDegree := ((melodyScaleDegree + targetInterval).tmod 7 + 7).tmod 7
  let octaveShift := (melodyScaleDegree + targetInterval).fdiv 7
  let targetNoteInOctave := scaleNotes.getD targetDegree.toNat 0
  let targetMidi := constrainToRange ((melodyOctave + octaveShift) * 12 + targetNoteInOctave)
    voiceRange
  match prevMelodyNote, prevHarmonyNote with
  | some prevM, some prevH =>
      let candidates := ([-1, 0, 1] : List ℤ).filterMap (fun octaveOffset =>
        let candidate := targetMidi + octaveOffset * 12
        if candidate < voiceRange.lo ∨ voiceRange.hi < candidate then none
        else some (candidate,
          harmonyCandidateScore melodyNote targetInterval prevM prevH candidate
            octaveOffset preferContraryMotion))
      match candidates.mergeSort (fun a b => decide (b.2 ≤ a.2)) with
      | [] => targetMidi
      | best :: _ => best.1
  | none, _ => targetMidi
  | some _, none => targetMidi

/-- The per-note loop of generateVoiceWithCounterpoint, threading the
previous melody/harmony pair. -/
def gvwcLoop (targetInterval : ℤ) (voiceRange : VoiceRange) (key : String)
    (isMinor : Bool) : Option (ℤ × ℤ) → List NoteEvent → List NoteEvent
  | _, [] => []
  | prev, note :: rest =>
      let harmonyMidi := findBestHarmonyNote note.midi targetInterval voiceRange
        (prev.map Prod.fst) (prev.map Prod.snd) key isMinor true
      { note with midi := harmonyMidi } ::
        gvwcLoop targetInterval voiceRange key isMinor (some (note.midi, harmonyMidi)) rest

/-- generateVoiceWithCounterpoint. -/
def generateVoiceWithCounterpoint (melody : List NoteEvent) (targetInterval : ℤ)
    (voiceRange : VoiceRange) (key : String) (isMinor : Bool) : List NoteEvent :=
  gvwcLoop targetInterval voiceRange key isMinor none melody

/-- generateSimpleHarmony: counterpoint-aware generation over a wide
range. -/
def generateSimpleHarmony (melody : List NoteEvent) (interval : ℤ)
    (key : String) (isMinor : Bool) : List NoteEvent :=
  let range := if 0 < interval then VoiceRange.mk 48 96 else VoiceRange.mk 36 84
  generateVoiceWithCounterpoint melody interval range key isMinor

/-- generateVoiceByChromatic: a fixed semitone offset applied to every
melody note, with no range clamping. -/
def generateVoiceByChromatic (melody : List NoteEvent) (semitones : ℤ) : List NoteEvent :=
  melody.map (fun note => { note with midi := note.midi + semitones })

/-- VOICE_RANGES.alto. -/
def altoRange : VoiceRange := ⟨53, 77⟩

/-- VOICE_RANGES.tenor. -/
def tenorRange : VoiceRange := ⟨48, 72⟩

/-- VOICE_RANGES.bass. -/
def bassRange : VoiceRange := ⟨40, 64⟩

/-- The `while ((bassNote % 12) !== root) bassNote--` search of the SATB
bass.  For a start at or below the (0–11) root pitch class with no match
the source loop never terminates (a negative JavaScript `%` can never
equal a positive root); the embedding returns the start there, a case
unreachable for sopranos in range. -/
def bassRootDown (root bassNote : ℤ) : ℤ :=
  if bassNote.tmod 12 = root then bassNote
  else if bassNote ≤ root then bassNote
  else bassRootDown root (bassNote - 1)
  termination_by (bassNote - root).toNat
  decreasing_by omega

/-- The `for (const alt of alternatives)` scan that nudges the SATB bass
off a parallel perfect: the first in-range alternative that removes the
parallelism wins, otherwise the bass is kept. -/
def bassAltLoop (pT tenorNote pB bassNote : ℤ) : List ℤ → ℤ
  | [] => bassNote
  | alt :: rest =>
      if (bassRange.lo ≤ alt ∧ alt ≤ bassRange.hi) ∧
          ¬ hasParallelPerfect pT tenorNote pB alt then alt
      else bassAltLoop pT tenorNote pB bassNote rest

/-- One iteration of generateSATBHarmony: the alto/tenor/bass triple for a
soprano (melody) note given the previous four voices. -/
def satbNotes (key : String) (isMinor : Bool) (sopranoNote : ℤ)
    (prevSoprano prevAlto prevTenor prevBass : Option ℤ) : ℤ × ℤ × ℤ :=
  let scaleDegree := getScaleDegree sopranoNote key isMinor
  let chordTones := getChordTones scaleDegree key isMinor
  let altoNote0 := findBestHarmonyNote sopranoNote (-2) altoRange prevSoprano prevAlto
    key isMinor true
  let altoNote := if sopranoNote < altoNote0 then constrainToRange (altoNote0 - 12) altoRange
    else altoNote0
  let tenorNote0 := findBestHarmonyNote sopranoNote (-4) tenorRange prevSoprano prevTenor
    key isMinor true
  let tenorNote1 := if altoNote < tenorNote0 then constrainToRange (tenorNote0 - 12) tenorRange
    else tenorNote0
  let tenorNote := if 12 < altoNote - tenorNote1 then
    constrainToRange (tenorNote1 + 12) tenorRange else tenorNote1
  let root := chordTones.getD 0 0
  let bassNote0 := constrainToRange (bassRootDown root (sopranoNote - 12)) bassRange
  let bassNote1 := if tenorNote < bassNote0 then constrainToRange (bassNote0 - 12) bassRange
    else bassNote0
  let bassNote :=
    match prevTenor, prevBass with
    | some pT, some pB =>
        if hasParallelPerfect pT tenorNote pB bassNote1 then
          bassAltLoop pT tenorNote pB bassNote1
            [bassNote1 + 1, bassNote1 - 1, bassNote1 + 2, bassNote1 - 2]
        else bassNote1
    | none, _ => bassNote1
    | some _, none => bassNote1
  (altoNote, tenorNote, bassNote)

/-- The per-note loop of generateSATBHarmony, threading the previous
soprano/alto/tenor/bass quadruple; yields one alto/tenor/bass midi triple
per melody note. -/
def satbLoop (key : String) (isMinor : Bool) :
    Option (ℤ × ℤ × ℤ × ℤ) → List NoteEvent → List (ℤ × ℤ × ℤ)
  | _, [] => []
  | prev, note :: rest =>
      let r := satbNotes key isMinor note.midi
        (prev.map (fun p => p.1)) (prev.map (fun p => p.2.1))
        (prev.map (fun p => p.2.2.1)) (prev.map (fun p => p.2.2.2))
      r :: satbLoop key isMinor (some (note.midi, r.1, r.2.1, r.2.2)) rest

/-- generateSATBHarmony: alto/tenor/bass voices from the per-note
triples. -/
def generateSATBHarmony (melody : List NoteEvent) (key : String) (isMinor : Bool) :
    List HarmonyVoice :=
  let triples := satbLoop key isMinor none melody
  [{ name := "Alto",
     notes := (melody.zip triples).map (fun p => { p.1 with midi := p.2.1 }),
     color := "#10b981" },
   { name := "Tenor",
     notes := (melody.zip triples).map (fun p => { p.1 with midi := p.2.2.1 }),
     color := "#f59e0b" },
   { name := "Bass",
     notes := (melody.zip triples).map (fun p => { p.1 with midi := p.2.2.2 }),
     color := "#8b5cf6" }]

/-- generateHarmony: dispatch on style (the nine interval/SATB styles). -/
def generateHarmony (melody : List NoteEvent) (style : HarmonyStyle)
    (key : String := "C") (isMinor : Bool := false) : HarmonyResult :=
  let voices : List HarmonyVoice :=
    match style with
    | .thirdsAbove =>
        [⟨"Voice 2 - Upper Third", generateSimpleHarmony melody 2 key isMinor, "#10b981"⟩]
    | .thirdsBelow =>
        [⟨"Voice 2 - Lower Third", generateSimpleHarmony melody (-2) key isMinor, "#f59e0b"⟩]
    | .sixthsAbove =>
        [⟨"Voice 2 - Upper Sixth", generateSimpleHarmony melody 5 key isMinor, "#8b5cf6"⟩]
    | .sixthsBelow =>
        [⟨"Voice 2 - Lower Sixth", generateSimpleHarmony melody (-5) key isMinor, "#ec4899"⟩]
    | .powerFifths =>
        [⟨"Voice 2 - Power Fifth", generateVoiceByChromatic melody 7, "#ef4444"⟩]
    | .triads =>
        [⟨"Voice 2 - Third", generateSimpleHarmony melody 2 key isMinor, "#10b981"⟩,
         ⟨"Voice 3 - Fifth", generateSimpleHarmony melody 4 key isMinor, "#8b5cf6"⟩]
    | .fourPart => generateSATBHarmony melody key isMinor
    | .octaveDouble =>
        [⟨"Voice 2 - Octave Up", generateVoiceByChromatic melody 12, "#10b981"⟩,
         ⟨"Voice 3 - Octave Down", generateVoiceByChromatic melody (-12), "#f59e0b"⟩]
    | .parallelThirdsSixths =>
        [⟨"Voice 2 - Upper Third", generateSimpleHarmony melody 2 key isMinor, "#10b981"⟩,
         ⟨"Voice 3 - Lower Sixth", generateSimpleHarmony melody (-5) key isMinor, "#f59e0b"⟩]
  { melody := melody, voices := voices }

/-- Claim C10: the chromatic styles apply their fixed semitone offset
unconditionally, with no MIDI-range clamping: the 'power-fifths' voice is
melody + 7 at every position, and the two 'octave-double' voices are
melody + 12 and melody − 12 — even when the result exceeds 127. -/
theorem C10_chromatic_offsets_unclamped (melody : List NoteEvent) (key : String)
    (isMinor : Bool) (i : ℕ) (note : NoteEvent) (h : melody[i]? = some note) :
    (∃ v, (generateHarmony melody .powerFifths key isMinor).voices = [v] ∧
      v.notes[i]? = some { note with midi := note.midi + 7 }) ∧
    (∃ v1 v2, (generateHarmony melody .octaveDouble key isMinor).voices = [v1, v2] ∧
      v1.notes[i]? = some { note with midi := note.midi + 12 } ∧
      v2.notes[i]? = some { note with midi := note.midi - 12 }) := by
  refine ⟨⟨_, rfl, ?_⟩, ⟨_, _, rfl, ?_, ?_⟩⟩ <;>
    simp [generateVoiceByChromatic, List.getElem?_map, h] <;> omega

/-- Concrete instantiation of the C10 theorem at a melody note above MIDI
115: the octave-up voice lands on MIDI 132, outside the 0–127 range. -/
theorem C10_chromatic_offsets_unclamped_witness :
    ((∃ v, (generateHarmony [⟨120, 0, 1, 80⟩] .powerFifths "C" false).voices = [v] ∧
        v.notes[0]? = some { midi := 120 + 7, startTime := 0, duration := 1, velocity := 80 }) ∧
      (∃ v1 v2, (generateHarmony [⟨120, 0, 1, 80⟩] .octaveDouble "C" false).voices = [v1, v2] ∧
        v1.notes[0]? = some { midi := 120 + 12, startTime := 0, duration := 1, velocity := 80 } ∧
        v2.notes[0]? = some { midi := 120 - 12, startTime := 0, duration := 1, velocity := 80 })) ∧
    (127 : ℤ) < 120 + 12 :=
  ⟨C10_chromatic_offsets_unclamped [⟨120, 0, 1, 80⟩] "C" false 0 ⟨120, 0, 1, 80⟩ rfl,
    by decide⟩

/-! ### Claim C3: no parallel perfects in the thirds-below voice -/

theorem raiseToMin_emod (lo midi : ℤ) : raiseToMin lo midi % 12 = midi % 12 := by
  rw [raiseToMin]
  split
  · rw [raiseToMin_emod lo (midi + 12)]
    omega
  · rfl
  termination_by (lo - midi).toNat
  decreasing_by omega

theorem lowerToMax_emod (hi midi : ℤ) : lowerToMax hi midi % 12 = midi % 12 := by
  rw [lowerToMax]
  split
  · rw [lowerToMax_emod hi (midi - 12)]
    omega
  · rfl
  termination_by (midi - hi).toNat
  decreasing_by omega

theorem constrainToRange_emod (midi : ℤ) (range : VoiceRange) :
    constrainToRange midi range % 12 = midi % 12 := by
  rw [constrainToRange, lowerToMax_emod, raiseToMin_emod]

theorem idxOf?_spec (x : ℤ) :
    ∀ (l : List ℤ) (i : ℕ), idxOf? l x = some i → i < l.length ∧ l.getD i 0 = x
  | [], i => by simp [idxOf?]
  | y :: rest, i => by
      intro h
      rw [idxOf?] at h
      by_cases hy : y = x
      · rw [if_pos hy] at h
        cases h
        simpa using hy
      · rw [if_neg hy] at h
        cases hi : idxOf? rest x with
        | none => rw [hi] at h; simp at h
        | some j =>
            rw [hi] at h
            simp at h
            obtain ⟨hj, hg⟩ := idxOf?_spec x rest j hi
            rw [← h]
            constructor
            · simpa using hj
            · simpa using hg

theorem idxOf?_of_mem (x : ℤ) :
    ∀ (l : List ℤ), x ∈ l → ∃ i, idxOf? l x = some i
  | [], h => absurd h (by simp)
  | y :: rest, h => by
      rw [idxOf?]
      by_cases hy : y = x
      · exact ⟨0, by rw [if_pos hy]⟩
      · rcases List.mem_cons.mp h with rfl | hr
        · exact absurd rfl hy
        · obtain ⟨i, hi⟩ := idxOf?_of_mem x rest hr
          exact ⟨i + 1, by rw [if_neg hy, hi]; rfl⟩

theorem getScaleNotes_length (key : String) (isMinor : Bool) :
    (getScaleNotes key isMinor).length = 7 := by
  cases isMinor <;> rfl

/-- In-key notes get their exact scale degree back from getScaleDegree. -/
theorem getScaleDegree_of_mem (m : ℤ) (key : String) (isMinor : Bool)
    (hin : m.tmod 12 ∈ getScaleNotes key isMinor) :
    ∃ i : ℕ, i < 7 ∧ getScaleDegree m key isMinor = (i : ℤ) ∧
      (getScaleNotes key isMinor).getD i 0 = m.tmod 12 := by
  obtain ⟨i, hi⟩ := idxOf?_of_mem (m.tmod 12) (getScaleNotes key isMinor) hin
  obtain ⟨hlt, hget⟩ := idxOf?_spec (m.tmod 12) (getScaleNotes key isMinor) i hi
  refine ⟨i, ?_, ?_, hget⟩
  · rwa [getScaleNotes_length] at hlt
  · rw [getScaleDegree]
    simp only [hi]

theorem keyRootOf_nonneg_lt (key : String) : 0 ≤ keyRootOf key ∧ keyRootOf key < 12 := by
  have hgen : ∀ (l : List (String × ℤ)), (∀ p ∈ l, 0 ≤ p.2 ∧ p.2 < 12) →
      ∀ k, 0 ≤ (lookupStr l k).getD 0 ∧ (lookupStr l k).getD 0 < 12 := by
    intro l
    induction l with
    | nil => intro _ k; simp [lookupStr]
    | cons p rest ih =>
        intro hall k
        rw [lookupStr]
        obtain ⟨k0, v⟩ := p
        by_cases hk : k0 = k
        · rw [if_pos hk]
          simpa using hall (k0, v) (by simp)
        · rw [if_neg hk]
          exact ih (fun q hq => hall q (by simp [hq])) k
  exact hgen KEY_ROOTS (by decide) key

/-- The scale-table entry behind a getScaleNotes element. -/
theorem getScaleNotes_getD (key : String) (isMinor : Bool) (j : ℕ) (hj : j < 7) :
    (getScaleNotes key isMinor).getD j 0 =
      (keyRootOf key + (if isMinor then MINOR_SCALE else MAJOR_SCALE).getD j 0).tmod 12 := by
  cases isMinor <;> (interval_cases j <;> rfl)

/-- Every candidate considered by findBestHarmonyNote is the constrained
target shifted by whole octaves, so its pitch class is the target's. -/
theorem mem_harmonyCandidates_emod {melodyNote targetInterval prevM prevH : ℤ}
    {pcm : Bool} {voiceRange : VoiceRange} {tm : ℤ} {c : ℤ × ℤ}
    (hc : c ∈ ([-1, 0, 1] : List ℤ).filterMap (fun octaveOffset =>
      if tm + octaveOffset * 12 < voiceRange.lo ∨ voiceRange.hi < tm + octaveOffset * 12
      then none
      else some (tm + octaveOffset * 12,
        harmonyCandidateScore melodyNote targetInterval prevM prevH
          (tm + octaveOffset * 12) octaveOffset pcm))) :
    c.1 % 12 = tm % 12 := by
  rw [List.mem_filterMap] at hc
  obtain ⟨o, _, heq⟩ := hc
  by_cases hcond : tm + o * 12 < voiceRange.lo ∨ voiceRange.hi < tm + o * 12
  · rw [if_pos hcond] at heq
    simp at heq
  · rw [if_neg hcond] at heq
    have h1 : c.1 = tm + o * 12 := by
      cases heq
      rfl
    omega

/-- The note findBestHarmonyNote returns always carries the pitch class of
the scale-degree-shifted target. -/
theorem findBestHarmonyNote_emod (melodyNote targetInterval : ℤ)
    (voiceRange : VoiceRange) (prevM prevH : Option ℤ) (key : String)
    (isMinor : Bool) (pcm : Bool) :
    findBestHarmonyNote melodyNote targetInterval voiceRange prevM prevH key isMinor pcm
        % 12 =
      (getScaleNotes key isMinor).getD
        (((getScaleDegree melodyNote key isMinor + targetInterval).tmod 7 + 7).tmod 7).toNat
        0 % 12 := by
  have htm : constrainToRange ((melodyNote.fdiv 12 +
      (getScaleDegree melodyNote key isMinor + targetInterval).fdiv 7) * 12 +
      (getScaleNotes key isMinor).getD
        (((getScaleDegree melodyNote key isMinor + targetInterval).tmod 7 + 7).tmod 7).toNat 0)
      voiceRange % 12 =
      (getScaleNotes key isMinor).getD
        (((getScaleDegree melodyNote key isMinor + targetInterval).tmod 7 + 7).tmod 7).toNat 0
        % 12 := by
    rw [constrainToRange_emod]
    omega
  cases prevM with
  | none =>
      rw [findBestHarmonyNote]
      exact htm
  | some pM =>
      cases prevH with
      | none =>
          rw [findBestHarmonyNote]
          exact htm
      | some pH =>
          rw [findBestHarmonyNote]
          dsimp only
          cases hs : (([-1, 0, 1] : List ℤ).filterMap (fun octaveOffset =>
              if constrainToRange ((melodyNote.fdiv 12 +
                    (getScaleDegree melodyNote key isMinor + targetInterval).fdiv 7) * 12 +
                    (getScaleNotes key isMinor).getD
                      (((getScaleDegree melodyNote key isMinor + targetInterval).tmod 7 +
                        7).tmod 7).toNat 0) voiceRange + octaveOffset * 12 < voiceRange.lo ∨
                  voiceRange.hi < constrainToRange ((melodyNote.fdiv 12 +
                    (getScaleDegree melodyNote key isMinor + targetInterval).fdiv 7) * 12 +
                    (getScaleNotes key isMinor).getD
                      (((getScaleDegree melodyNote key isMinor + targetInterval).tmod 7 +
                        7).tmod 7).toNat 0) voiceRange + octaveOffset * 12
              then none
              else some (constrainToRange ((melodyNote.fdiv 12 +
                    (getScaleDegree melodyNote key isMinor + targetInterval).fdiv 7) * 12 +
                    (getScaleNotes key isMinor).getD
                      (((getScaleDegree melodyNote key isMinor + targetInterval).tmod 7 +
                        7).tmod 7).toNat 0) voiceRange + octaveOffset * 12,
                harmonyCandidateScore melodyNote targetInterval pM pH
                  (constrainToRange ((melodyNote.fdiv 12 +
                    (getScaleDegree melodyNote key isMinor + targetInterval).fdiv 7) * 12 +
                    (getScaleNotes key isMinor).getD
                      (((getScaleDegree melodyNote key isMinor + targetInterval).tmod 7 +
                        7).tmod 7).toNat 0) voiceRange + octaveOffset * 12) octaveOffset
                  pcm))).mergeSort (fun a b => decide (b.2 ≤ a.2)) with
          | nil => exact htm
          | cons best rest =>
              have hbest : best ∈ ([-1, 0, 1] : List ℤ).filterMap (fun octaveOffset =>
                  if constrainToRange ((melodyNote.fdiv 12 +
                        (getScaleDegree melodyNote key isMinor + targetInterval).fdiv 7) * 12 +
                        (getScaleNotes key isMinor).getD
                          (((getScaleDegree melodyNote key isMinor + targetInterval).tmod 7 +
                            7).tmod 7).toNat 0) voiceRange + octaveOffset * 12 < voiceRange.lo ∨
                      voiceRange.hi < constrainToRange ((melodyNote.fdiv 12 +
                        (getScaleDegree melodyNote key isMinor + targetInterval).fdiv 7) * 12 +
                        (getScaleNotes key isMinor).getD
                          (((getScaleDegree melodyNote key isMinor + targetInterval).tmod 7 +
                            7).tmod 7).toNat 0) voiceRange + octaveOffset * 12
                  then none
                  else some (constrainToRange ((melodyNote.fdiv 12 +
                        (getScaleDegree melodyNote key isMinor + targetInterval).fdiv 7) * 12 +
                        (getScaleNotes key isMinor).getD
                          (((getScaleDegree melodyNote key isMinor + targetInterval).tmod 7 +
                            7).tmod 7).toNat 0) voiceRange + octaveOffset * 12,
                    harmonyCandidateScore melodyNote targetInterval pM pH
                      (constrainToRange ((melodyNote.fdiv 12 +
                        (getScaleDegree melodyNote key isMinor + targetInterval).fdiv 7) * 12 +
                        (getScaleNotes key isMinor).getD
                          (((getScaleDegree melodyNote key isMinor + targetInterval).tmod 7 +
                            7).tmod 7).toNat 0) voiceRange + octaveOffset * 12) octaveOffset
                      pcm)) := by
                rw [← @List.mem_mergeSort _ (fun a b : ℤ × ℤ => decide (b.2 ≤ a.2)) _ _, hs]
                exact List.mem_cons_self _ _
              exact (mem_harmonyCandidates_emod hbest).trans htm

/-- The scale-table entry behind a getScaleNotes element, with the
JavaScript remainder rewritten to the mathematical one (both operands are
nonnegative). -/
theorem getScaleNotes_getD_emod (key : String) (isMinor : Bool) (j : ℕ) (hj : j < 7) :
    (getScaleNotes key isMinor).getD j 0 =
      (keyRootOf key + (if isMinor then MINOR_SCALE else MAJOR_SCALE).getD j 0) % 12 := by
  have hr := (keyRootOf_nonneg_lt key).1
  have hb : 0 ≤ keyRootOf key + (if isMinor then MINOR_SCALE else MAJOR_SCALE).getD j 0 := by
    have hs : 0 ≤ (if isMinor then MINOR_SCALE else MAJOR_SCALE).getD j 0 := by
      cases isMinor <;> interval_cases j <;> norm_num [MAJOR_SCALE, MINOR_SCALE]
    omega
  rw [getScaleNotes_getD key isMinor j hj, Int.tmod_eq_emod hb (by norm_num)]

/-- The scale degree two below degree i, as computed with JavaScript
remainders, is degree (i+5) mod 7. -/
theorem thirdIndex (i : ℕ) (hi : i < 7) :
    ((((i : ℤ) + -2).tmod 7 + 7).tmod 7).toNat = (i + 5) % 7 := by
  interval_cases i <;> decide

/-- In both scale shapes, the diatonic third below any scale degree is 3 or
4 semitones down (mod 12); the key root cancels. -/
theorem getScaleNotes_third_below (key : String) (isMinor : Bool) (i : ℕ) (hi : i < 7) :
    (((getScaleNotes key isMinor).getD i 0 -
      (getScaleNotes key isMinor).getD ((((i : ℤ) + -2).tmod 7 + 7).tmod 7).toNat 0) % 12 = 3) ∨
    (((getScaleNotes key isMinor).getD i 0 -
      (getScaleNotes key isMinor).getD ((((i : ℤ) + -2).tmod 7 + 7).tmod 7).toNat 0) % 12 = 4) := by
  have hr := (keyRootOf_nonneg_lt key).1
  rw [thirdIndex i hi]
  cases isMinor <;> interval_cases i <;>
    (rw [getScaleNotes_getD_emod _ _ _ (by norm_num), getScaleNotes_getD_emod _ _ _ (by norm_num)]
     norm_num [MAJOR_SCALE, MINOR_SCALE]
     omega)

/-- In-key melody notes are a diatonic third (3 or 4 semitones, mod 12)
above the thirds-below harmony note chosen for them. -/
theorem thirdsBelow_interval (key : String) (isMinor : Bool) (m : ℤ) (hm : 0 ≤ m)
    (hin : m.tmod 12 ∈ getScaleNotes key isMinor) (prevM prevH : Option ℤ) :
    ((m - findBestHarmonyNote m (-2) ⟨36, 84⟩ prevM prevH key isMinor true) % 12 = 3) ∨
    ((m - findBestHarmonyNote m (-2) ⟨36, 84⟩ prevM prevH key isMinor true) % 12 = 4) := by
  obtain ⟨i, hi7, hd, hget⟩ := getScaleDegree_of_mem m key isMinor hin
  have hres := findBestHarmonyNote_emod m (-2) ⟨36, 84⟩ prevM prevH key isMinor true
  rw [hd] at hres
  have hdiff := getScaleNotes_third_below key isMinor i hi7
  have hm12 : m % 12 = (getScaleNotes key isMinor).getD i 0 := by
    rw [hget, Int.tmod_eq_emod hm (by norm_num)]
  rcases hdiff with h | h
  · left
    omega
  · right
    omega

/-- A pair whose current interval is a third (3 or 4 mod 12) can never be
flagged as parallel perfects: the current interval normalizes to 3, 4, 8 or
9, none of which is 0, 7 or 5. -/
theorem hasParallelPerfect_eq_false_of_third (p1 c1 p2 c2 : ℤ)
    (h : (c1 - c2) % 12 = 3 ∨ (c1 - c2) % 12 = 4) :
    hasParallelPerfect p1 c1 p2 c2 = false := by
  rw [hasParallelPerfect]
  have habs : |c1 - c2|.tmod 12 = |c1 - c2| % 12 :=
    Int.tmod_eq_emod (abs_nonneg _) (by norm_num)
  have hne : ¬ (|c1 - c2|.tmod 12 = 0 ∨ |c1 - c2|.tmod 12 = 7 ∨ |c1 - c2|.tmod 12 = 5) := by
    rw [habs]
    rcases abs_cases (c1 - c2) with ⟨he, _⟩ | ⟨he, _⟩ <;> rw [he] <;> omega
  rw [if_pos (Or.inr hne)]

/-- Down the counterpoint loop for thirds-below, every produced harmony
note sits a diatonic third (3 or 4 semitones mod 12) below its melody
note, provided the melody is nonnegative and in key. -/
theorem gvwcLoop_interval (key : String) (isMinor : Bool) :
    ∀ (melody : List NoteEvent) (prev : Option (ℤ × ℤ)),
      (∀ n ∈ melody, 0 ≤ n.midi ∧ n.midi.tmod 12 ∈ getScaleNotes key isMinor) →
      ∀ (i : ℕ) (note h : NoteEvent), melody[i]? = some note →
        (gvwcLoop (-2) ⟨36, 84⟩ key isMinor prev melody)[i]? = some h →
        (((note.midi - h.midi) % 12 = 3) ∨ ((note.midi - h.midi) % 12 = 4))
  | [], prev => by intro _ i note h hn; simp at hn
  | n0 :: rest, prev => by
      intro hkey i note h hn hh
      rw [gvwcLoop] at hh
      cases i with
      | zero =>
          simp at hn hh
          rw [← hn, ← hh]
          simp only
          exact thirdsBelow_interval key isMinor n0.midi (hkey n0 (by simp)).1
            (hkey n0 (by simp)).2 _ _
      | succ j =>
          simp only [List.getElem?_cons_succ] at hn hh
          exact gvwcLoop_interval key isMinor rest
            (some (n0.midi, findBestHarmonyNote n0.midi (-2) ⟨36, 84⟩
              (prev.map Prod.fst) (prev.map Prod.snd) key isMinor true))
            (fun n hnn => hkey n (by simp [hnn])) j note h hn hh

/-- Claim C3: for every melody of at least 3 monotonically
stepwise-ascending notes whose pitches lie in the given diatonic key, the
thirds-below harmony voice contains no pair of consecutive positions at
which the melody/harmony pair forms parallel perfect fifths or octaves as
judged by hasParallelPerfect.  (The proof needs only the in-key and
nonnegativity hypotheses: a diatonic third below is never a perfect
interval, so the parallel-perfect test can never fire.) -/
theorem C3_thirds_below_no_parallel_perfects (key : String) (isMinor : Bool)
    (melody : List NoteEvent)
    (hlen : 3 ≤ melody.length)
    (hkey : ∀ n ∈ melody, 0 ≤ n.midi ∧ n.midi.tmod 12 ∈ getScaleNotes key isMinor)
    (hstep : melody.Chain' (fun a b => a.midi + 1 = b.midi ∨ a.midi + 2 = b.midi)) :
    ∀ voice ∈ (generateHarmony melody .thirdsBelow key isMinor).voices,
      ∀ (i : ℕ) (mi mi1 hi hi1 : NoteEvent),
        melody[i]? = some mi → melody[i + 1]? = some mi1 →
        voice.notes[i]? = some hi → voice.notes[i + 1]? = some hi1 →
        hasParallelPerfect mi.midi mi1.midi hi.midi hi1.midi = false := by
  intro voice hv i mi mi1 hi hi1 hm hm1 hh hh1
  have hvoice : voice.notes = gvwcLoop (-2) ⟨36, 84⟩ key isMinor none melody := by
    rw [generateHarmony] at hv
    simp only [generateSimpleHarmony, generateVoiceWithCounterpoint] at hv
    rw [if_neg (by norm_num : ¬ (0 : ℤ) < -2)] at hv
    simp at hv
    rw [hv]
  rw [hvoice] at hh1
  have hint := gvwcLoop_interval key isMinor melody none hkey (i + 1) mi1 hi1 hm1 hh1
  exact hasParallelPerfect_eq_false_of_third mi.midi mi1.midi hi.midi hi1.midi hint

set_option maxHeartbeats 1600000 in
/-- Concrete instantiation of the C3 theorem: for the C-major melody
C4–D4–E4 the thirds-below harmony voice is A3–B3–C4, and the first pair of
consecutive melody/harmony dyads, (60, 57) followed by (62, 59), is free of
parallel perfect intervals. -/
theorem C3_thirds_below_no_parallel_perfects_witness :
    hasParallelPerfect 60 62 57 59 = false := by
  have hF1 : findBestHarmonyNote 60 (-2) ⟨36, 84⟩ none none "C" false true = 57 := by
    have hm : getScaleDegree 60 "C" false = 0 := by
      norm_num [getScaleDegree, getScaleNotes, keyRootOf, lookupStr, KEY_ROOTS,
        MAJOR_SCALE, idxOf?, Int.tmod_eq_emod]
    have hC : constrainToRange 57 ⟨36, 84⟩ = 57 := by
      simp [constrainToRange, raiseToMin, lowerToMax]
    have ht1 : ((-2 : ℤ)).tmod 7 = -2 := by decide
    have ht2 : ((5 : ℤ)).tmod 7 = 5 := by decide
    have hf1 : ((60 : ℤ)).fdiv 12 = 5 := by decide
    have hf2 : ((-2 : ℤ)).fdiv 7 = -1 := by decide
    have hn : ((5 : ℤ)).toNat = 5 := by decide
    norm_num [findBestHarmonyNote, hm, hC, ht1, ht2, hf1, hf2, hn,
      getScaleNotes, keyRootOf, lookupStr, KEY_ROOTS, MAJOR_SCALE, Int.tmod_eq_emod]
  have hF2 : findBestHarmonyNote 62 (-2) ⟨36, 84⟩ (some 60) (some 57) "C" false true = 59 := by
    have hm : getScaleDegree 62 "C" false = 1 := by
      norm_num [getScaleDegree, getScaleNotes, keyRootOf, lookupStr, KEY_ROOTS,
        MAJOR_SCALE, idxOf?, Int.tmod_eq_emod]
    have hC : constrainToRange 59 ⟨36, 84⟩ = 59 := by
      simp [constrainToRange, raiseToMin, lowerToMax]
    have ht1 : ((-1 : ℤ)).tmod 7 = -1 := by decide
    have ht2 : ((6 : ℤ)).tmod 7 = 6 := by decide
    have hf1 : ((62 : ℤ)).fdiv 12 = 5 := by decide
    have hf2 : ((-1 : ℤ)).fdiv 7 = -1 := by decide
    have hp1 : hasParallelPerfect 60 62 57 47 = false := by decide
    have hp2 : hasParallelPerfect 60 62 57 59 = false := by decide
    have hp3 : hasParallelPerfect 60 62 57 71 = false := by decide
    have hs1 : ((2 : ℤ)).sign = 1 := by decide
    have hs2 : ((-10 : ℤ)).sign = -1 := by decide
    have hs3 : ((14 : ℤ)).sign = 1 := by decide
    have hn : ((6 : ℤ)).toNat = 6 := by decide
    norm_num [findBestHarmonyNote, hm, hC, ht1, ht2, hf1, hf2, hp1, hp2, hp3,
      hs1, hs2, hs3, hn, harmonyCandidateScore, List.mergeSort,
      List.filterMap_cons, List.filterMap_nil,
      getScaleNotes, keyRootOf, lookupStr, KEY_ROOTS, MAJOR_SCALE, Int.tmod_eq_emod,
      abs_of_nonneg, abs_of_nonpos]
  have hF3 : findBestHarmonyNote 64 (-2) ⟨36, 84⟩ (some 62) (some 59) "C" false true = 60 := by
    have hm : getScaleDegree 64 "C" false = 2 := by
      norm_num [getScaleDegree, getScaleNotes, keyRootOf, lookupStr, KEY_ROOTS,
        MAJOR_SCALE, idxOf?, Int.tmod_eq_emod]
    have hC : constrainToRange 60 ⟨36, 84⟩ = 60 := by
      simp [constrainToRange, raiseToMin, lowerToMax]
    have ht1 : ((0 : ℤ)).tmod 7 = 0 := by decide
    have ht2 : ((7 : ℤ)).tmod 7 = 0 := by decide
    have hf1 : ((64 : ℤ)).fdiv 12 = 5 := by decide
    have hf2 : ((0 : ℤ)).fdiv 7 = 0 := by decide
    have hp1 : hasParallelPerfect 62 64 59 48 = false := by decide
    have hp2 : hasParallelPerfect 62 64 59 60 = false := by decide
    have hp3 : hasParallelPerfect 62 64 59 72 = false := by decide
    have hs1 : ((2 : ℤ)).sign = 1 := by decide
    have hs2 : ((-11 : ℤ)).sign = -1 := by decide
    have hs3 : ((1 : ℤ)).sign = 1 := by decide
    have hs4 : ((13 : ℤ)).sign = 1 := by decide
    have hn : ((0 : ℤ)).toNat = 0 := by decide
    norm_num [findBestHarmonyNote, hm, hC, ht1, ht2, hf1, hf2, hp1, hp2, hp3,
      hs1, hs2, hs3, hs4, hn, harmonyCandidateScore, List.mergeSort,
      List.filterMap_cons, List.filterMap_nil,
      getScaleNotes, keyRootOf, lookupStr, KEY_ROOTS, MAJOR_SCALE, Int.tmod_eq_emod,
      abs_of_nonneg, abs_of_nonpos]
  have hG : gvwcLoop (-2) ⟨36, 84⟩ "C" false none
      [⟨60, 0, 1, 80⟩, ⟨62, 1, 1, 80⟩, ⟨64, 2, 1, 80⟩] =
      [⟨57, 0, 1, 80⟩, ⟨59, 1, 1, 80⟩, ⟨60, 2, 1, 80⟩] := by
    simp [gvwcLoop, hF1, hF2, hF3]
  have hmem : (⟨"Voice 2 - Lower Third",
      [⟨57, 0, 1, 80⟩, ⟨59, 1, 1, 80⟩, ⟨60, 2, 1, 80⟩], "#f59e0b"⟩ : HarmonyVoice) ∈
      (generateHarmony [⟨60, 0, 1, 80⟩, ⟨62, 1, 1, 80⟩, ⟨64, 2, 1, 80⟩]
        .thirdsBelow "C" false).voices := by
    norm_num [generateHarmony, generateSimpleHarmony, generateVoiceWithCounterpoint, hG]
  exact C3_thirds_below_no_parallel_perfects "C" false
    [⟨60, 0, 1, 80⟩, ⟨62, 1, 1, 80⟩, ⟨64, 2, 1, 80⟩]
    (by norm_num)
    (by
      intro n hn
      simp at hn
      rcases hn with rfl | rfl | rfl <;> refine ⟨by norm_num, ?_⟩ <;> decide)
    (by
      rw [List.chain'_cons, List.chain'_cons]
      refine ⟨Or.inr (by norm_num), Or.inr (by norm_num), List.chain'_singleton _⟩)
    _ hmem 0 ⟨60, 0, 1, 80⟩ ⟨62, 1, 1, 80⟩ ⟨57, 0, 1, 80⟩ ⟨59, 1, 1, 80⟩
    rfl rfl rfl rfl

/-! ### Claim C7: unknown key signatures and fail-fast behaviour -/

/-- NOTE_TO_SEMITONE from the chord library. -/
def NOTE_TO_SEMITONE : List (String × ℤ) :=
  [("C", 0), ("C#", 1), ("Db", 1),
   ("D", 2), ("D#", 3), ("Eb", 3),
   ("E", 4), ("Fb", 4), ("E#", 5),
   ("F", 5), ("F#", 6), ("Gb", 6),
   ("G", 7), ("G#", 8), ("Ab", 8),
   ("A", 9), ("A#", 10), ("Bb", 10),
   ("B", 11), ("Cb", 11), ("B#", 0)]

/-- SEMITONE_TO_NOTE_SHARP from the chord library. -/
def SEMITONE_TO_NOTE_SHARP : List String :=
  ["C", "C#", "D"] ++ ["D#", "E", "F", "F#", "G"] ++ ["G#", "A", "A#", "B"]

/-- TRIAD_INTERVALS table. -/
def TRIAD_INTERVALS : TriadQuality → List ℤ
  | .major => [0, 4, 7]
  | .minor => [0, 3, 7]
  | .diminished => [0, 3, 6]
  | .augmented => [0, 4, 8]
  | .sus2 => [0, 2, 7]
  | .sus4 => [0, 5, 7]
  | .power => [0, 7]

/-- A MAJOR_SCALE_CHORDS / MINOR_SCALE_CHORDS entry. -/
structure ScaleChord where
  degree : ℤ
  triad : TriadQuality
  seventh : Option SeventhType
  deriving DecidableEq, Repr

/-- MAJOR_SCALE_CHORDS. -/
def MAJOR_SCALE_CHORDS : List ScaleChord :=
  [⟨0, .major, some .major7⟩, ⟨2, .minor, some .minor7⟩, ⟨4, .minor, some .minor7⟩,
   ⟨5, .major, some .major7⟩, ⟨7, .major, some .dominant7⟩, ⟨9, .minor, some .minor7⟩,
   ⟨11, .diminished, some .minor7⟩]

/-- MINOR_SCALE_CHORDS. -/
def MINOR_SCALE_CHORDS : List ScaleChord :=
  [⟨0, .minor, some .minor7⟩, ⟨2, .diminished, some .minor7⟩, ⟨3, .major, some .major7⟩,
   ⟨5, .minor, some .minor7⟩, ⟨7, .major, some .dominant7⟩, ⟨8, .major, some .major7⟩,
   ⟨10, .major, some .dominant7⟩]

/-- A JavaScript `Set` built from a list: first occurrences, in insertion
order. -/
def dedupPCs (l : List ℤ) : List ℤ :=
  l.foldl (fun acc x => if x ∈ acc then acc else acc ++ [x]) []

/-- The score of one scale chord against the pitch classes in a window:
one point per matching distinct pitch class, plus 0.5 when the chord root
itself is present. -/
def chordScore (keyRootSemitone : ℤ) (pitchClasses : List ℤ) (sc : ScaleChord) : ℚ :=
  let chordRoot := (keyRootSemitone + sc.degree).tmod 12
  let chordPitches := (TRIAD_INTERVALS sc.triad).map (fun i => (chordRoot + i).tmod 12)
  let base : ℚ := ((pitchClasses.filter (fun pc => pc ∈ chordPitches)).length : ℚ)
  if chordRoot ∈ pitchClasses then base + 1/2 else base

/-- The best-chord scan: strict improvement over a running best starting
from score −1 (so the first chord always replaces the initial null). -/
def bestChordLoop (keyRootSemitone : ℤ) (pcs : List ℤ) :
    List ScaleChord → Option ScaleChord → ℚ → Option ScaleChord × ℚ
  | [], best, bestScore => (best, bestScore)
  | sc :: rest, best, bestScore =>
      let score := chordScore keyRootSemitone pcs sc
      if bestScore < score then bestChordLoop keyRootSemitone pcs rest (some sc) score
      else bestChordLoop keyRootSemitone pcs rest best bestScore

/-- The per-window body of suggestChords. -/
def suggestWindow (melodyNotes : List NoteEvent) (keyRootSemitone : ℤ)
    (scaleChords : List ScaleChord) (secondsPerBeat chordInterval : ℚ)
    (beat : ℚ) : Option ChordEvent :=
  let beatStartTime := beat * secondsPerBeat
  let beatEndTime := (beat + chordInterval) * secondsPerBeat
  let notesInRegion := melodyNotes.filter
    (fun n => n.startTime < beatEndTime ∧ beatStartTime < n.startTime + n.duration)
  if notesInRegion = [] then none
  else
    let pitchClasses := dedupPCs (notesInRegion.map (fun n => n.midi.tmod 12))
    match bestChordLoop keyRootSemitone pitchClasses scaleChords none (-1) with
    | (some bestChord, bestScore) =>
        if 0 < bestScore then
          some { root := SEMITONE_TO_NOTE_SHARP.getD
                   ((keyRootSemitone + bestChord.degree).tmod 12).toNat "",
                 triad := bestChord.triad,
                 seventh := none,
                 startBeat := beat,
                 durationBeats := chordInterval }
        else none
    | (none, _) => none

/-- suggestChords from the chord library.  The source's
`for (let beat = 0; beat < totalBeats; beat += chordInterval)` loop visits
exactly the beats `k * chordInterval` for `k < ⌈totalBeats/chordInterval⌉`
when `chordInterval > 0`; for `chordInterval ≤ 0` the source loop would
not terminate when totalBeats is positive, and the embedding visits no
beats. -/
def suggestChords (melodyNotes : List NoteEvent) (keyRoot : String) (isMinor : Bool)
    (beatsPerMeasure tempo : ℚ) : List ChordEvent :=
  let keyRootSemitone := (lookupStr NOTE_TO_SEMITONE keyRoot).getD 0
  let scaleChords := if isMinor then MINOR_SCALE_CHORDS else MAJOR_SCALE_CHORDS
  let secondsPerBeat := 60 / tempo
  let totalBeats : ℤ :=
    match melodyNotes.getLast? with
    | none => 0
    | some last => ⌈(last.startTime + last.duration) / secondsPerBeat⌉
  let chordInterval := beatsPerMeasure
  let iterations : ℕ :=
    if 0 < chordInterval then (max 0 ⌈(totalBeats : ℚ) / chordInterval⌉).toNat else 0
  ((List.range iterations).map (fun k => (k : ℚ) * chordInterval)).filterMap
    (fun beat => suggestWindow melodyNotes keyRootSemitone scaleChords
      secondsPerBeat chordInterval beat)

theorem getScaleNotes_congr {k1 k2 : String} (h : keyRootOf k1 = keyRootOf k2) :
    ∀ isMinor, getScaleNotes k1 isMinor = getScaleNotes k2 isMinor := by
  intro isMinor
  rw [getScaleNotes, getScaleNotes, h]

theorem getScaleDegree_congr {k1 k2 : String} (h : keyRootOf k1 = keyRootOf k2) :
    ∀ m isMinor, getScaleDegree m k1 isMinor = getScaleDegree m k2 isMinor := by
  intro m isMinor
  rw [getScaleDegree, getScaleDegree, getScaleNotes_congr h]

theorem getChordTones_congr {k1 k2 : String} (h : keyRootOf k1 = keyRootOf k2) :
    ∀ d isMinor, getChordTones d k1 isMinor = getChordTones d k2 isMinor := by
  intro d isMinor
  rw [getChordTones, getChordTones, getScaleNotes_congr h]

theorem findBestHarmonyNote_congr {k1 k2 : String} (h : keyRootOf k1 = keyRootOf k2) :
    ∀ m t r pM pH isMinor pcm,
      findBestHarmonyNote m t r pM pH k1 isMinor pcm =
        findBestHarmonyNote m t r pM pH k2 isMinor pcm := by
  intro m t r pM pH isMinor pcm
  cases pM with
  | none => rw [findBestHarmonyNote, findBestHarmonyNote,
      getScaleNotes_congr h, getScaleDegree_congr h]
  | some a =>
      cases pH with
      | none => rw [findBestHarmonyNote, findBestHarmonyNote,
          getScaleNotes_congr h, getScaleDegree_congr h]
      | some b => rw [findBestHarmonyNote, findBestHarmonyNote,
          getScaleNotes_congr h, getScaleDegree_congr h]

theorem gvwcLoop_congr {k1 k2 : String} (h : keyRootOf k1 = keyRootOf k2) :
    ∀ (melody : List NoteEvent) t r prev isMinor,
      gvwcLoop t r k1 isMinor prev melody = gvwcLoop t r k2 isMinor prev melody
  | [], _, _, _, _ => rfl
  | note :: rest, t, r, prev, isMinor => by
      rw [gvwcLoop, gvwcLoop, findBestHarmonyNote_congr h,
        gvwcLoop_congr h rest t r _ isMinor]

theorem generateSimpleHarmony_congr {k1 k2 : String} (h : keyRootOf k1 = keyRootOf k2) :
    ∀ melody interval isMinor,
      generateSimpleHarmony melody interval k1 isMinor =
        generateSimpleHarmony melody interval k2 isMinor := by
  intro melody interval isMinor
  rw [generateSimpleHarmony, generateSimpleHarmony,
    generateVoiceWithCounterpoint, generateVoiceWithCounterpoint, gvwcLoop_congr h]

theorem satbNotes_congr {k1 k2 : String} (h : keyRootOf k1 = keyRootOf k2) :
    ∀ isMinor s pS pA pT pB,
      satbNotes k1 isMinor s pS pA pT pB = satbNotes k2 isMinor s pS pA pT pB := by
  intro isMinor s pS pA pT pB
  cases pT <;> cases pB <;>
    rw [satbNotes, satbNotes, getScaleDegree_congr h, getChordTones_congr h,
      findBestHarmonyNote_congr h, findBestHarmonyNote_congr h]

theorem satbLoop_congr {k1 k2 : String} (h : keyRootOf k1 = keyRootOf k2) :
    ∀ (melody : List NoteEvent) prev isMinor,
      satbLoop k1 isMinor prev melody = satbLoop k2 isMinor prev melody
  | [], _, _ => rfl
  | note :: rest, prev, isMinor => by
      rw [satbLoop, satbLoop, satbNotes_congr h, satbLoop_congr h rest _ isMinor]

theorem generateSATBHarmony_congr {k1 k2 : String} (h : keyRootOf k1 = keyRootOf k2) :
    ∀ melody isMinor,
      generateSATBHarmony melody k1 isMinor = generateSATBHarmony melody k2 isMinor := by
  intro melody isMinor
  rw [generateSATBHarmony, generateSATBHarmony, satbLoop_congr h]

theorem generateHarmony_congr {k1 k2 : String} (h : keyRootOf k1 = keyRootOf k2) :
    ∀ melody style isMinor,
      generateHarmony melody style k1 isMinor = generateHarmony melody style k2 isMinor := by
  intro melody style isMinor
  cases style <;>
    simp only [generateHarmony, generateSimpleHarmony_congr h, generateSATBHarmony_congr h]

theorem suggestChords_congr {k1 k2 : String}
    (h : (lookupStr NOTE_TO_SEMITONE k1).getD 0 = (lookupStr NOTE_TO_SEMITONE k2).getD 0) :
    ∀ melody isMinor beatsPerMeasure tempo,
      suggestChords melody k1 isMinor beatsPerMeasure tempo =
        suggestChords melody k2 isMinor beatsPerMeasure tempo := by
  intro melody isMinor beatsPerMeasure tempo
  rw [suggestChords, suggestChords, h]

/-- Claim C7 (amended): an unrecognized key signature is not rejected —
both generateHarmony and suggestChords silently substitute the default
root 0 (C) and return exactly what they would return for key "C", instead
of failing fast with the offending parameter named. -/
theorem C7_unknown_key_silently_defaults (key : String)
    (h1 : lookupStr KEY_ROOTS key = none)
    (h2 : lookupStr NOTE_TO_SEMITONE key = none) :
    (∀ melody style isMinor,
        generateHarmony melody style key isMinor =
          generateHarmony melody style "C" isMinor) ∧
    (∀ melody isMinor beatsPerMeasure tempo,
        suggestChords melody key isMinor beatsPerMeasure tempo =
          suggestChords melody "C" isMinor beatsPerMeasure tempo) := by
  have hroot : keyRootOf key = keyRootOf "C" := by
    rw [keyRootOf, keyRootOf, h1]
    rfl
  have hsemi : (lookupStr NOTE_TO_SEMITONE key).getD 0 =
      (lookupStr NOTE_TO_SEMITONE "C").getD 0 := by
    rw [h2]
    rfl
  exact ⟨fun melody style isMinor => generateHarmony_congr hroot melody style isMinor,
    fun melody isMinor bpm tempo => suggestChords_congr hsemi melody isMinor bpm tempo⟩

/-- Concrete instantiation of the C7 theorem at the unknown key "X". -/
theorem C7_unknown_key_silently_defaults_witness :
    (∀ melody style isMinor,
        generateHarmony melody style "X" isMinor =
          generateHarmony melody style "C" isMinor) ∧
    (∀ melody isMinor beatsPerMeasure tempo,
        suggestChords melody "X" isMinor beatsPerMeasure tempo =
          suggestChords melody "C" isMinor beatsPerMeasure tempo) :=
  C7_unknown_key_silently_defaults "X" (by decide) (by decide)

set_option maxHeartbeats 1600000 in
/-- Claim C7 counterexample: with the unknown key "X", both generateHarmony
and suggestChords return a normal, non-empty result — identical to the one
computed for the substituted default key C — instead of failing fast. -/
theorem C7_no_failfast_counterexample :
    (generateHarmony [⟨60, 0, 1, 80⟩] .thirdsBelow "X" false =
        generateHarmony [⟨60, 0, 1, 80⟩] .thirdsBelow "C" false ∧
      (generateHarmony [⟨60, 0, 1, 80⟩] .thirdsBelow "X" false).voices ≠ []) ∧
    (suggestChords [⟨60, 0, 1, 80⟩] "X" false 1 60 =
        suggestChords [⟨60, 0, 1, 80⟩] "C" false 1 60 ∧
      suggestChords [⟨60, 0, 1, 80⟩] "X" false 1 60 ≠ []) := by
  have hroot : keyRootOf "X" = keyRootOf "C" := by decide
  have hsemi : (lookupStr NOTE_TO_SEMITONE "X").getD 0 =
      (lookupStr NOTE_TO_SEMITONE "C").getD 0 := by decide
  refine ⟨⟨generateHarmony_congr hroot _ _ _, ?_⟩,
    ⟨suggestChords_congr hsemi _ _ _ _, ?_⟩⟩
  · simp [generateHarmony]
  · rw [suggestChords_congr hsemi]
    have hwin : suggestWindow [⟨60, 0, 1, 80⟩] 0 MAJOR_SCALE_CHORDS 1 1 0 =
        some { root := "C", triad := .major, seventh := none,
               startBeat := 0, durationBeats := 1 } := by
      norm_num [suggestWindow, dedupPCs, bestChordLoop, chordScore,
        TRIAD_INTERVALS, MAJOR_SCALE_CHORDS, SEMITONE_TO_NOTE_SHARP,
        Int.tmod_eq_emod]
    have heval : suggestChords [⟨60, 0, 1, 80⟩] "C" false 1 60 =
        [{ root := "C", triad := .major, seventh := none,
           startBeat := 0, durationBeats := 1 }] := by
      have hk : (lookupStr NOTE_TO_SEMITONE "C").getD 0 = 0 := by decide
      have hr : List.range 1 = [0] := rfl
      norm_num [suggestChords, hk, hwin, hr, List.flatMap_cons,
        List.flatMap_nil, List.filterMap_cons, List.filterMap_nil]
    rw [heval]
    simp
